import Mathlib

/-!
# Decoder attention kernel (`attention_forward_decoder.cpp`)

A shallow embedding of the single-token attention decoder kernel
`efficient_attention_forward_decoder_ck_kernel`, of the lane-exchange reduction
`wavefrontReduce`, and of the host launcher
`efficient_attention_forward_decoder_ck_out_impl`.

Conventions.
* The kernel is embedded at its `float` instantiation, where `type_convert` is the
  identity; arithmetic is exact, over an ordered field `α`, and `__expf` is a
  parameter `expf : α → α`.
* A register of a group of 64 lanes is a function `Nat → α` from the lane index.
* The working buffer `smem` is a function `Int → α` from the float offset.
* 32-bit loop counters are integers; no counter of the kernel leaves the 32-bit
  range for lengths up to `T_MAX`.
-/

namespace AttnDecoder

/-! ## Constants (lines 39-42) -/

/-- Lanes per group, `kThreadsPerWavefront`. -/
def kThreadsPerWavefront : Nat := 64

/-- Groups per block of the registered operator, `kWavefrontsPerBlock`. -/
def kWavefrontsPerBlock : Nat := 16

/-- Per-head dimension, `D_H = 4 * kThreadsPerWavefront`. -/
def D_H : Nat := 4 * kThreadsPerWavefront

/-- Compile-time bound on the cache depth, `T_MAX`. -/
def T_MAX : Nat := 8192

/-- Default value of the template parameter `n_loop_unroll`. -/
def n_loop_unroll : Nat := 16

/-- Default value of the template parameter `n_loop_unroll_tail`. -/
def n_loop_unroll_tail : Nat := 2

/-! ## `wavefrontReduce` (lines 100-107) -/

/-- One pass of the loop body `val = f(__shfl_xor(val, mask, 64), val)`, for all lanes
at once: lane `i` reads the value held by lane `i xor mask`. -/
def shflStep {α : Type} (f : α → α → α) (mask : Nat) (val : Nat → α) : Nat → α :=
  fun lane => f (val (lane ^^^ mask)) (val lane)

/-- The loop `for (mask = ...; mask > 0; mask >>= 1)` of `wavefrontReduce`, with a
fuel argument bounding the number of passes. -/
def wavefrontReduceLoop {α : Type} (f : α → α → α) : Nat → Nat → (Nat → α) → (Nat → α)
  | 0, _, val => val
  | fuel + 1, mask, val =>
    if mask > 0 then wavefrontReduceLoop f fuel (mask >>> 1) (shflStep f mask val)
    else val

/-- The function `wavefrontReduce(val, f)`: the loop starts at
`mask = kThreadsPerWavefront >> 1`; `kThreadsPerWavefront` passes of fuel are more
than the loop can use (see `wavefrontReduce_unrolled`). -/
def wavefrontReduce {α : Type} (val : Nat → α) (f : α → α → α) : Nat → α :=
  wavefrontReduceLoop f kThreadsPerWavefront (kThreadsPerWavefront >>> 1) val

/-! ### Auxiliary notions for the reduction proof -/

/-- The passes with masks `2^(k-1), ..., 2, 1`, in this order. -/
def butterfly {α : Type} (f : α → α → α) : Nat → (Nat → α) → (Nat → α)
  | 0, val => val
  | k + 1, val => butterfly f k (shflStep f (2 ^ k) val)

/-- Balanced combination of `val start, ..., val (start + 2^k - 1)`. -/
def blockFold {α : Type} (f : α → α → α) (val : Nat → α) : Nat → Nat → α
  | start, 0 => val start
  | start, k + 1 => f (blockFold f val start k) (blockFold f val (start + 2 ^ k) k)

/-- Left fold `f (... f (f (v 0) (v 1)) (v 2) ...) (v 63)` over the 64 lanes. -/
def foldLanes {α : Type} (f : α → α → α) (v : Nat → α) : α :=
  List.foldl f (v 0) ((List.range' 1 63).map v)

/-! ## Vectors and vectorised access (lines 65-123) -/

/-- The 4-float vector `ck::float4_t`. -/
structure Float4 (α : Type) where
  x : α
  y : α
  z : α
  w : α

/-- Component `i` of a 4-vector (`x, y, z, w` for `0, 1, 2, 3`). -/
def Float4.get {α : Type} (v : Float4 α) (i : Nat) : α :=
  match i with
  | 0 => v.x
  | 1 => v.y
  | 2 => v.z
  | _ => v.w

/-- The initialiser `ck::float4_t r = 0`. -/
def Float4.zero {α : Type} [Zero α] : Float4 α := ⟨0, 0, 0, 0⟩

/-- The component-wise sum of `r += partial_r`. -/
def Float4.add {α : Type} [Add α] (a b : Float4 α) : Float4 α :=
  ⟨a.x + b.x, a.y + b.y, a.z + b.z, a.w + b.w⟩

/-- The function `load_v(data_ptr, vector_offset, load_to)`: the four scalars at offsets
`4 * vector_offset ..  4 * vector_offset + 3` from `data_ptr`. -/
def load_v {α : Type} (data_ptr : Int → α) (vector_offset : Int) : Float4 α :=
  ⟨data_ptr (4 * vector_offset), data_ptr (4 * vector_offset + 1),
   data_ptr (4 * vector_offset + 2), data_ptr (4 * vector_offset + 3)⟩

/-- The function `store_v(data_ptr, vector_offset, value)`. -/
def store_v {α : Type} (data_ptr : Int → α) (vector_offset : Int) (value : Float4 α) :
    Int → α :=
  Function.update (Function.update (Function.update (Function.update data_ptr
    (4 * vector_offset) value.x) (4 * vector_offset + 1) value.y)
    (4 * vector_offset + 2) value.z) (4 * vector_offset + 3) value.w

/-- The function `ck::inner_product` on 4-vectors: the four products are added to
`c` one after the other, as in the specialisation of lines 24-34. -/
def inner_product {α : Type} [Add α] [Mul α] (a b : Float4 α) (c : α) : α :=
  c + a.x * b.x + a.y * b.y + a.z * b.z + a.w * b.w

/-- The function `scalar4_scale_acc(acc, a, b)`: `acc + a * b` on every component. -/
def scalar4_scale_acc {α : Type} [Add α] [Mul α] (acc a : Float4 α) (b : α) : Float4 α :=
  ⟨acc.x + a.x * b, acc.y + a.y * b, acc.z + a.z * b, acc.w + a.w * b⟩

/-- The value `std::numeric_limits<float>::lowest()`, that is `-(2^128 - 2^104)`. -/
def floatLowest {α : Type} [Ring α] : α := -340282346638528859811704183484516925440

/-! ## Tensors -/

/-- Element types a tensor can have (`at::ScalarType`). -/
inductive ScalarType where
  | Byte | Char | Short | Int | Long | Half | Float | Double | Bool | BFloat16
  deriving DecidableEq, Repr

/-- A 4-dimensional tensor: device flag, element type, extents and elements. -/
structure Tensor (α : Type) where
  is_cuda : Bool
  scalar_type : ScalarType
  sizes : List Nat
  data : Int → Int → Int → Int → α

/-- The extent `size(i)`. -/
def Tensor.size {α : Type} (T : Tensor α) (i : Nat) : Nat := T.sizes.getD i 0

/-- The 1-dimensional `int32` tensor of valid lengths. -/
structure IntTensor where
  is_cuda : Bool
  data : Int → Int

/-! ## Loop counters -/

/-- Values taken by the counter of `for (tt = start; tt < bound; tt += step)`, with a
fuel argument bounding the number of passes. -/
def loopIters : Nat → Int → Int → Int → List Int
  | 0, _, _, _ => []
  | fuel + 1, tt, bound, step =>
    if tt < bound then tt :: loopIters fuel (tt + step) bound step else []

/-- Values taken by the counter of `for (tt = start; tt < bound; tt += step)`; for a
positive step the loop makes at most `bound - start` passes, so the fuel is never
exhausted (see `mem_forIters`). -/
def forIters (start bound step : Int) : List Int :=
  loopIters (bound - start).toNat start bound step

/-- The constant `dtt = kWavefrontsPerBlock * n_loop_unroll` of line 181. -/
def dtt : Int := kWavefrontsPerBlock * n_loop_unroll

/-- The bound `t_max_unroll = (t_max / dtt) * dtt` of line 182; the division of
`int32_t` truncates. -/
def t_max_unroll (t_max : Int) : Int := (t_max.tdiv dtt) * dtt

/-- Header of the main unrolled loops (lines 184 and 294), for group `wavefront_idx`:
`for (tt = wavefront_idx * n_loop_unroll; tt < t_max_unroll; tt += dtt)`. -/
def mainLoopIters (wavefront_idx : Nat) (t_max : Int) : List Int :=
  forIters (wavefront_idx * n_loop_unroll) (t_max_unroll t_max) dtt

/-- Header of the tail loops (lines 212-213 and 310-311):
`for (tt = t_max_unroll + wavefront_idx * n_loop_unroll_tail; tt < t_max;
tt += wavefronts_per_block * n_loop_unroll_tail)`. -/
def tailLoopIters (wavefronts_per_block wavefront_idx : Nat) (t_max : Int) : List Int :=
  forIters (t_max_unroll t_max + wavefront_idx * n_loop_unroll_tail) t_max
    (wavefronts_per_block * n_loop_unroll_tail)

/-- The index `thread_linear_idx = lane_idx + wavefront_idx * threads_per_wavefront`. -/
def thread_linear_idx (wavefront_idx lane_idx : Nat) : Int :=
  lane_idx + wavefront_idx * kThreadsPerWavefront

/-- The count `threads_per_block = threads_per_wavefront * wavefronts_per_block`. -/
def threads_per_block (wavefronts_per_block : Nat) : Int :=
  kThreadsPerWavefront * wavefronts_per_block

/-- Header of the two softmax loops (lines 259 and 281):
`for (t = thread_linear_idx; t < t_max; t += threads_per_block)`. -/
def stridedIters (wavefronts_per_block wavefront_idx lane_idx : Nat) (t_max : Int) :
    List Int :=
  forIters (thread_linear_idx wavefront_idx lane_idx) t_max
    (threads_per_block wavefronts_per_block)

/-- The maximum of `f 0, ..., f (n - 1)` (of `f 0` alone when `n = 0`). -/
def maxOver {α : Type} [LinearOrder α] : Nat → (Nat → α) → α
  | 0, f => f 0
  | n + 1, f => max (maxOver n f) (f n)

/-! ## Positions visited by the loops -/

/-- Cache positions `t = tt + ttt` that the main loops of group `wavefront_idx` visit,
in order. -/
def mainPositions (wavefront_idx : Nat) (t_max : Int) : List Int :=
  (mainLoopIters wavefront_idx t_max).flatMap fun tt =>
    (List.range n_loop_unroll).map fun (ttt : Nat) => tt + (ttt : Int)

/-- Cache positions `t = tt + ttt` with `t < t_max` that the tail loops of group
`wavefront_idx` visit, in order. -/
def tailPositions (wavefronts_per_block wavefront_idx : Nat) (t_max : Int) : List Int :=
  (tailLoopIters wavefronts_per_block wavefront_idx t_max).flatMap fun tt =>
    ((List.range n_loop_unroll_tail).map fun (ttt : Nat) => tt + (ttt : Int)).filter
      fun t => decide (t < t_max)

/-- Cache positions that group `wavefront_idx` visits in the score stage and again
in the accumulation stage: main loop, then tail loop. -/
def groupPositions (wavefronts_per_block wavefront_idx : Nat) (t_max : Int) : List Int :=
  mainPositions wavefront_idx t_max ++ tailPositions wavefronts_per_block wavefront_idx t_max

/-- Cache positions visited by the groups of a block, group after group. -/
def blockPositions (wavefronts_per_block : Nat) (t_max : Int) : List Int :=
  (List.range wavefronts_per_block).flatMap fun wavefront_idx =>
    groupPositions wavefronts_per_block wavefront_idx t_max

/-- Score slots visited by the lanes of a block in a softmax loop, group after group
and lane after lane. -/
def threadPositions (wavefronts_per_block : Nat) (t_max : Int) : List Int :=
  (List.range wavefronts_per_block).flatMap fun wavefront_idx =>
    (List.range kThreadsPerWavefront).flatMap fun lane_idx =>
      stridedIters wavefronts_per_block wavefront_idx lane_idx t_max

/-! ## The kernel, stage by stage (lines 129-358)

Every stage is given for one block. Within a stage the groups run one after the
other, which is one of the schedules the barriers allow. The arguments common to
the stages are the query slices `q_thread` held by the lanes, the cache rows
`Krow t` and `Vrow t`, the scale `qk_scale`, the length `t_max` and the number of
groups of the launch, `wavefronts_per_block` (`blockDim.y`). -/

section Kernel

variable {α : Type} [LinearOrderedField α]

/-- The reduced, scaled score of position `t` as every lane holds it after lines
195-199 (or 228-233): the lane's slice product, times `qk_scale`, summed by
`wavefrontReduce`. -/
def qk_acc (q_thread : Nat → Float4 α) (Krow : Int → Int → α) (qk_scale : α) (t : Int) :
    Nat → α :=
  wavefrontReduce
    (fun lane_idx => inner_product (q_thread lane_idx) (load_v (Krow t) lane_idx) 0 * qk_scale)
    (fun a b => a + b)

/-- What the score stage of one group changes: the running maximum of each lane
and the working buffer. -/
structure ScoreState (α : Type) where
  max_qk_acc : Nat → α
  smem : Int → α

/-- Body of the main score loop (lines 185-208) for the counter value `tt`: the
scores of `tt, ..., tt + n_loop_unroll - 1` are computed and folded into the running
maximum, then lane 0 stores them at `smem[tt + ttt]`. -/
def scoreMainBody (q_thread : Nat → Float4 α) (Krow : Int → Int → α) (qk_scale : α)
    (tt : Int) (s : ScoreState α) : ScoreState α :=
  let qk_accs : Nat → Nat → α := fun ttt => qk_acc q_thread Krow qk_scale (tt + (ttt : Int))
  { max_qk_acc := (List.range n_loop_unroll).foldl
      (fun m ttt lane_idx => max (qk_accs ttt lane_idx) (m lane_idx)) s.max_qk_acc
    smem := (List.range n_loop_unroll).foldl
      (fun sm (ttt : Nat) => Function.update sm (tt + (ttt : Int)) (qk_accs ttt 0)) s.smem }

/-- Body of the tail score loop (lines 214-241) for the counter value `tt`: every
`t = tt + ttt` is guarded by `t < t_max`. -/
def scoreTailBody (q_thread : Nat → Float4 α) (Krow : Int → Int → α) (qk_scale : α)
    (t_max : Int) (tt : Int) (s : ScoreState α) : ScoreState α :=
  (List.range n_loop_unroll_tail).foldl
    (fun s (ttt : Nat) =>
      let t : Int := tt + (ttt : Int)
      if t < t_max then
        let qk := qk_acc q_thread Krow qk_scale t
        { max_qk_acc := fun lane_idx => max (qk lane_idx) (s.max_qk_acc lane_idx)
          smem := Function.update s.smem t (qk 0) }
      else s)
    s

/-- The effect of scoring one position `t`: the score is folded into the running
maximum of every lane and lane 0 stores it at `smem[t]`. -/
def scoreAt (q_thread : Nat → Float4 α) (Krow : Int → Int → α) (qk_scale : α)
    (s : ScoreState α) (t : Int) : ScoreState α :=
  { max_qk_acc := fun lane_idx => max (qk_acc q_thread Krow qk_scale t lane_idx)
      (s.max_qk_acc lane_idx)
    smem := Function.update s.smem t (qk_acc q_thread Krow qk_scale t 0) }

/-- The score stage of group `wavefront_idx` (lines 173-242): main loop, then tail
loop, from `max_qk_acc = lowest()`. -/
def scoreWavefront (q_thread : Nat → Float4 α) (Krow : Int → Int → α) (qk_scale : α)
    (wavefronts_per_block wavefront_idx : Nat) (t_max : Int) (smem : Int → α) :
    ScoreState α :=
  let s1 := (mainLoopIters wavefront_idx t_max).foldl
    (fun s tt => scoreMainBody q_thread Krow qk_scale tt s)
    { max_qk_acc := fun _ => floatLowest, smem := smem }
  (tailLoopIters wavefronts_per_block wavefront_idx t_max).foldl
    (fun s tt => scoreTailBody q_thread Krow qk_scale t_max tt s) s1

/-- The score stage of the block: the running maxima of all groups (by group and
lane) and the working buffer after every group has stored its scores. -/
def scoreStage (q_thread : Nat → Float4 α) (Krow : Int → Int → α) (qk_scale : α)
    (wavefronts_per_block : Nat) (t_max : Int) (smem : Int → α) :
    (Nat → Nat → α) × (Int → α) :=
  (List.range wavefronts_per_block).foldl
    (fun acc wavefront_idx =>
      let r := scoreWavefront q_thread Krow qk_scale wavefronts_per_block wavefront_idx
        t_max acc.2
      (Function.update acc.1 wavefront_idx r.max_qk_acc, r.smem))
    (fun _ _ => floatLowest, smem)

/-- Lane 0 of every group stores its register at `smem[T_MAX + wavefront_idx]` (lines
246-248 and 266-268). -/
def stageWrite (vals : Nat → Nat → α) (wavefronts_per_block : Nat) (smem : Int → α) :
    Int → α :=
  (List.range wavefronts_per_block).foldl
    (fun sm (wavefront_idx : Nat) =>
      Function.update sm ((T_MAX : Int) + (wavefront_idx : Int)) (vals wavefront_idx 0))
    smem

/-- The block-wide maximum as every lane of every group holds it after lines
250-255. -/
def blockMax (max_qk_acc : Nat → Nat → α) (wavefronts_per_block : Nat) (smem : Int → α) :
    Nat → Nat → α :=
  fun wavefront_idx =>
    wavefrontReduce
      (fun lane_idx =>
        if lane_idx < wavefronts_per_block then
          max (max_qk_acc wavefront_idx lane_idx) (smem ((T_MAX : Int) + (lane_idx : Int)))
        else max_qk_acc wavefront_idx lane_idx)
      (fun a b => if a > b then a else b)

/-- The sum of exponentials of every group (lines 258-263): each lane adds
`__expf(smem[t] - max_qk_acc)` over its strided positions, then the group reduces. -/
def expSum (expf : α → α) (max_qk_acc : Nat → Nat → α) (wavefronts_per_block : Nat)
    (t_max : Int) (smem : Int → α) : Nat → Nat → α :=
  fun wavefront_idx =>
    wavefrontReduce
      (fun lane_idx =>
        (stridedIters wavefronts_per_block wavefront_idx lane_idx t_max).foldl
          (fun softmax_denominator t =>
            softmax_denominator + expf (smem t - max_qk_acc wavefront_idx lane_idx))
          0)
      (fun a b => a + b)

/-- The block-wide denominator as every lane of every group holds it after lines
272-277. -/
def blockSum (wavefronts_per_block : Nat) (smem : Int → α) : Nat → Nat → α :=
  fun _ =>
    wavefrontReduce
      (fun lane_idx =>
        if lane_idx < wavefronts_per_block then smem ((T_MAX : Int) + (lane_idx : Int)) else 0)
      (fun a b => a + b)

/-- The normalisation loop of one lane (lines 279-283). -/
def normalizeLane (expf : α → α) (max_qk_acc softmax_denominator : α)
    (wavefronts_per_block wavefront_idx lane_idx : Nat) (t_max : Int) (smem : Int → α) :
    Int → α :=
  let softmax_scale_factor : α := 1 / softmax_denominator
  (stridedIters wavefronts_per_block wavefront_idx lane_idx t_max).foldl
    (fun sm t => Function.update sm t (expf (sm t - max_qk_acc) * softmax_scale_factor))
    smem

/-- The normalisation loops of all lanes of the block. -/
def normalize (expf : α → α) (max_qk_acc softmax_denominator : Nat → Nat → α)
    (wavefronts_per_block : Nat) (t_max : Int) (smem : Int → α) : Int → α :=
  (List.range wavefronts_per_block).foldl
    (fun sm wavefront_idx =>
      (List.range kThreadsPerWavefront).foldl
        (fun sm lane_idx =>
          normalizeLane expf (max_qk_acc wavefront_idx lane_idx)
            (softmax_denominator wavefront_idx lane_idx)
            wavefronts_per_block wavefront_idx lane_idx t_max sm)
        sm)
    smem

/-- Body of the main accumulation loop (lines 295-307) for the counter value `tt`. -/
def accMainBody (Vrow : Int → Int → α) (smem : Int → α) (tt : Int)
    (o_acc : Nat → Float4 α) : Nat → Float4 α :=
  let k_loads : Nat → Nat → Float4 α := fun ttt lane_idx => load_v (Vrow (tt + (ttt : Int))) lane_idx
  let ps : Nat → α := fun ttt => smem (tt + (ttt : Int))
  (List.range n_loop_unroll).foldl
    (fun o ttt lane_idx => scalar4_scale_acc (o lane_idx) (k_loads ttt lane_idx) (ps ttt))
    o_acc

/-- Body of the tail accumulation loop (lines 312-330) for the counter value `tt`:
a row and its weight are loaded and used only under the guard `t < t_max`. -/
def accTailBody (Vrow : Int → Int → α) (smem : Int → α) (t_max : Int) (tt : Int)
    (o_acc : Nat → Float4 α) : Nat → Float4 α :=
  let k_loads : Nat → Nat → Float4 α := fun ttt lane_idx => load_v (Vrow (tt + (ttt : Int))) lane_idx
  let ps : Nat → α := fun ttt => smem (tt + (ttt : Int))
  (List.range n_loop_unroll_tail).foldl
    (fun o (ttt : Nat) =>
      let t : Int := tt + (ttt : Int)
      if t < t_max then
        fun lane_idx => scalar4_scale_acc (o lane_idx) (k_loads ttt lane_idx) (ps ttt)
      else o)
    o_acc

/-- The accumulation stage of group `wavefront_idx` (lines 292-331): the accumulator
`o_acc` of every lane. -/
def accWavefront (Vrow : Int → Int → α) (wavefronts_per_block wavefront_idx : Nat)
    (t_max : Int) (smem : Int → α) : Nat → Float4 α :=
  let o1 := (mainLoopIters wavefront_idx t_max).foldl
    (fun o tt => accMainBody Vrow smem tt o) (fun _ => Float4.zero)
  (tailLoopIters wavefronts_per_block wavefront_idx t_max).foldl
    (fun o tt => accTailBody Vrow smem t_max tt o) o1

/-- Every lane stores its accumulator at the vector slot `thread_linear_idx` of the
working buffer (line 337). -/
def storeAccs (o_acc : Nat → Nat → Float4 α) (wavefronts_per_block : Nat)
    (smem : Int → α) : Int → α :=
  (List.range wavefronts_per_block).foldl
    (fun sm wavefront_idx =>
      (List.range kThreadsPerWavefront).foldl
        (fun sm lane_idx =>
          store_v sm (thread_linear_idx wavefront_idx lane_idx) (o_acc wavefront_idx lane_idx))
        sm)
    smem

/-- The sum `r` of lane `lane_idx` of group 0 (lines 342-348). -/
def sumAccs (wavefronts_per_block : Nat) (smem : Int → α) (lane_idx : Nat) : Float4 α :=
  (List.range wavefronts_per_block).foldl
    (fun r (w : Nat) => r.add (load_v smem ((w : Int) * kThreadsPerWavefront + lane_idx)))
    Float4.zero

/-- The buffers of a launch. -/
inductive Buffer where
  | XQ | cache_K | cache_V | seq_positions | O
  deriving DecidableEq, Repr

/-- A store to global memory: the lane that makes it (block, group, lane), the
buffer and element it goes to, and the value. -/
structure GlobalStore (α : Type) where
  blockIdx_x : Nat
  blockIdx_y : Nat
  wavefront_idx : Nat
  lane_idx : Nat
  buf : Buffer
  i0 : Int
  i1 : Int
  i2 : Int
  i3 : Int
  val : α

/-- The element a store goes to: buffer and index. -/
def GlobalStore.target {α : Type} (s : GlobalStore α) : Buffer × Int × Int × Int × Int :=
  (s.buf, s.i0, s.i1, s.i2, s.i3)

/-- Order of the stores of a launch: by batch, then head, then offset in the row. -/
def GlobalStore.before {α : Type} (s s2 : GlobalStore α) : Prop :=
  s.i0 < s2.i0 ∨ (s.i0 = s2.i0 ∧ (s.i2 < s2.i2 ∨ (s.i2 = s2.i2 ∧ s.i3 < s2.i3)))

/-- The arguments of a launch, with the initial contents of the working buffer of
every block. -/
structure Launch (α : Type) where
  XQ : Tensor α
  cache_K : Tensor α
  cache_V : Tensor α
  seq_positions : IntTensor
  qk_scale : α
  wavefronts_per_block : Nat
  smem : Nat → Nat → Int → α

/-- The length `t_max = seq_positions[b] + seq_positions_shift` of block `(b, h)`. -/
def Launch.t_max (L : Launch α) (b : Nat) : Int := L.seq_positions.data b + 0

/-- The flag `multiquery = cache_K.size(2) == 1`. -/
def Launch.multiquery (L : Launch α) : Bool := L.cache_K.size 2 == 1

/-- The row `cache_K_base + t * cache_K.stride(1)` of block `(b, h)`. -/
def Launch.Krow (L : Launch α) (b h : Nat) : Int → Int → α :=
  fun t d => L.cache_K.data b t (if L.multiquery then 0 else h) d

/-- The row `cache_V_base + t * cache_V.stride(1)` of block `(b, h)`. -/
def Launch.Vrow (L : Launch α) (b h : Nat) : Int → Int → α :=
  fun t d => L.cache_V.data b t (if L.multiquery then 0 else h) d

/-- The register `q_thread` of every lane of block `(b, h)` (line 171). -/
def Launch.q_thread (L : Launch α) (b h : Nat) : Nat → Float4 α :=
  fun lane_idx => load_v (fun d => L.XQ.data b 0 h d) lane_idx

/-- The running maxima and the working buffer of block `(b, h)` after the score
stage. -/
def Launch.afterScore (L : Launch α) (b h : Nat) : (Nat → Nat → α) × (Int → α) :=
  scoreStage (L.q_thread b h) (L.Krow b h) L.qk_scale L.wavefronts_per_block (L.t_max b)
    (L.smem b h)

/-- The working buffer after the group maxima are staged (line 249). -/
def Launch.smemMaxStaged (L : Launch α) (b h : Nat) : Int → α :=
  stageWrite (L.afterScore b h).1 L.wavefronts_per_block (L.afterScore b h).2

/-- The register `max_qk_acc` of every lane after line 255. -/
def Launch.max_qk_acc (L : Launch α) (b h : Nat) : Nat → Nat → α :=
  blockMax (L.afterScore b h).1 L.wavefronts_per_block (L.smemMaxStaged b h)

/-- The working buffer after the group sums are staged (line 269). -/
def Launch.smemSumStaged (L : Launch α) (expf : α → α) (b h : Nat) : Int → α :=
  stageWrite
    (expSum expf (L.max_qk_acc b h) L.wavefronts_per_block (L.t_max b) (L.smemMaxStaged b h))
    L.wavefronts_per_block (L.smemMaxStaged b h)

/-- The register `softmax_denominator` of every lane after line 277. -/
def Launch.softmax_denominator (L : Launch α) (expf : α → α) (b h : Nat) : Nat → Nat → α :=
  blockSum L.wavefronts_per_block (L.smemSumStaged expf b h)

/-- The working buffer after the normalisation (line 284). -/
def Launch.smemNormalized (L : Launch α) (expf : α → α) (b h : Nat) : Int → α :=
  normalize expf (L.max_qk_acc b h) (L.softmax_denominator expf b h)
    L.wavefronts_per_block (L.t_max b) (L.smemSumStaged expf b h)

/-- The accumulator `o_acc` of every lane after the accumulation stage (line 334). -/
def Launch.o_acc (L : Launch α) (expf : α → α) (b h : Nat) : Nat → Nat → Float4 α :=
  fun wavefront_idx =>
    accWavefront (L.Vrow b h) L.wavefronts_per_block wavefront_idx (L.t_max b)
      (L.smemNormalized expf b h)

/-- The working buffer after the accumulators are stored (line 339). -/
def Launch.smemAccs (L : Launch α) (expf : α → α) (b h : Nat) : Int → α :=
  storeAccs (L.o_acc expf b h) L.wavefronts_per_block (L.smemNormalized expf b h)

/-- The vector `bf_r` of lane `lane_idx` of group 0 (lines 350-354); `type_convert` is
the identity. -/
def Launch.bf_r (L : Launch α) (expf : α → α) (b h : Nat) (lane_idx : Nat) : Float4 α :=
  sumAccs L.wavefronts_per_block (L.smemAccs expf b h) lane_idx

/-- The maximum of the staged group maxima of block `(b, h)`. -/
def Launch.blockMaxVal (L : Launch α) (b h : Nat) : α :=
  maxOver L.wavefronts_per_block fun l => (L.afterScore b h).1 l 0

/-- The sum of `expf (smem[t] - blockMaxVal)` over the score slots that the lanes of
block `(b, h)` visit in the loop of lines 259-261. -/
def Launch.denomVal (L : Launch α) (expf : α → α) (b h : Nat) : α :=
  ((threadPositions L.wavefronts_per_block (L.t_max b)).map
    fun t => expf ((L.afterScore b h).2 t - L.blockMaxVal b h)).sum

/-- The global stores of lane `lane_idx` of group `wavefront_idx` of block `(b, h)`:
only lines 341-357 store to global memory, `store_v(o_, lane_idx, bf_r)` under
`wavefront_idx == 0`. -/
def Launch.laneStores (L : Launch α) (expf : α → α) (b h wavefront_idx lane_idx : Nat) :
    List (GlobalStore α) :=
  if wavefront_idx = 0 then
    (List.range 4).map fun (i : Nat) =>
      { blockIdx_x := b, blockIdx_y := h, wavefront_idx := wavefront_idx,
        lane_idx := lane_idx, buf := Buffer.O,
        i0 := b, i1 := 0, i2 := h, i3 := 4 * (lane_idx : Int) + i,
        val := (L.bf_r expf b h lane_idx).get i }
  else []

/-- The global stores of block `(b, h)`, over its groups and lanes. -/
def Launch.blockStores (L : Launch α) (expf : α → α) (b h : Nat) : List (GlobalStore α) :=
  (List.range L.wavefronts_per_block).flatMap fun wavefront_idx =>
    (List.range kThreadsPerWavefront).flatMap fun lane_idx =>
      L.laneStores expf b h wavefront_idx lane_idx

/-- The global stores of the kernel over a grid of `B x H` blocks. -/
def Launch.stores (L : Launch α) (expf : α → α) (B H : Nat) : List (GlobalStore α) :=
  (List.range B).flatMap fun b => (List.range H).flatMap fun h => L.blockStores expf b h

/-- The elements of the output tensor after a store. -/
def applyStore (O : Int → Int → Int → Int → α) (s : GlobalStore α) :
    Int → Int → Int → Int → α :=
  fun i0 i1 i2 i3 =>
    if s.buf = Buffer.O ∧ i0 = s.i0 ∧ i1 = s.i1 ∧ i2 = s.i2 ∧ i3 = s.i3 then s.val
    else O i0 i1 i2 i3

/-- The kernel `efficient_attention_forward_decoder_ck_kernel` launched over a grid
of `B x H` blocks: the elements of the output tensor after all stores. -/
def efficient_attention_forward_decoder_ck_kernel (expf : α → α) (L : Launch α)
    (B H : Nat) (O : Int → Int → Int → Int → α) : Int → Int → Int → Int → α :=
  (L.stores expf B H).foldl applyStore O

/-! ## Control flow of one lane -/

/-- The steps a lane takes through the kernel body, in program order; a barrier
carries the line of its `__syncthreads()`. -/
inductive Step where
  | load_q
  | score_main (tt : Int)
  | score_tail (tt : Int)
  | write_max
  | syncthreads (line : Nat)
  | read_max
  | reduce_max
  | exp_add (t : Int)
  | reduce_sum
  | write_sum
  | read_sum
  | reduce_total
  | normalize_slot (t : Int)
  | acc_main (tt : Int)
  | acc_tail (tt : Int)
  | store_acc
  | sum_accs
  | store_output
  deriving DecidableEq, Repr

/-- Whether a step is a full-block barrier. -/
def Step.isBarrier : Step → Bool
  | Step.syncthreads _ => true
  | _ => false

/-- The steps of lane `lane_idx` of group `wavefront_idx`, following the kernel body
statement by statement: loops contribute one step per pass, and a statement under
`if (lane_idx == 0)`, `if (lane_idx < wavefronts_per_block)` or
`if (wavefront_idx == 0)` contributes its step only when the condition holds. -/
def laneSteps (wavefronts_per_block wavefront_idx lane_idx : Nat) (t_max : Int) :
    List Step :=
  [Step.load_q]
    ++ (mainLoopIters wavefront_idx t_max).map Step.score_main
    ++ (tailLoopIters wavefronts_per_block wavefront_idx t_max).map Step.score_tail
    ++ (if lane_idx = 0 then [Step.write_max] else [])
    ++ [Step.syncthreads 249]
    ++ (if lane_idx < wavefronts_per_block then [Step.read_max] else [])
    ++ [Step.reduce_max]
    ++ (stridedIters wavefronts_per_block wavefront_idx lane_idx t_max).map Step.exp_add
    ++ [Step.reduce_sum]
    ++ [Step.syncthreads 265]
    ++ (if lane_idx = 0 then [Step.write_sum] else [])
    ++ [Step.syncthreads 269]
    ++ (if lane_idx < wavefronts_per_block then [Step.read_sum] else [])
    ++ [Step.reduce_total]
    ++ (stridedIters wavefronts_per_block wavefront_idx lane_idx t_max).map
        Step.normalize_slot
    ++ [Step.syncthreads 284]
    ++ (mainLoopIters wavefront_idx t_max).map Step.acc_main
    ++ (tailLoopIters wavefronts_per_block wavefront_idx t_max).map Step.acc_tail
    ++ [Step.syncthreads 334]
    ++ [Step.store_acc]
    ++ [Step.syncthreads 339]
    ++ (if wavefront_idx = 0 then [Step.sum_accs, Step.store_output] else [])

/-- The barriers a lane passes, in order. -/
def laneBarriers (wavefronts_per_block wavefront_idx lane_idx : Nat) (t_max : Int) :
    List Step :=
  (laneSteps wavefronts_per_block wavefront_idx lane_idx t_max).filter Step.isBarrier

/-! ## Reference attention

The straightforward softmax attention of one query against the first `n` cached
positions, as the specification words it; the kernel is compared with it. -/

/-- The score `s_t = qk_scale * sum_d Q[b,0,h,d] * K[b,t,h,d]`. -/
def referenceScore (L : Launch α) (b h t : Nat) : α :=
  L.qk_scale * ∑ d in Finset.range D_H, L.XQ.data b 0 h d * L.Krow b h t d

/-- The weight `w_t = exp(s_t - max_u s_u) / sum_u exp(s_u - max_u s_u)` over the
first `n` positions. -/
def referenceWeight (expf : α → α) (L : Launch α) (b h n t : Nat) : α :=
  expf (referenceScore L b h t - maxOver n (referenceScore L b h))
    / ∑ u in Finset.range n,
        expf (referenceScore L b h u - maxOver n (referenceScore L b h))

/-- The output `sum over t < n of w_t * V[b,t,h,d]`. -/
def referenceAttention (expf : α → α) (L : Launch α) (b h n d : Nat) : α :=
  ∑ t in Finset.range n, referenceWeight expf L b h n t * L.Vrow b h t d

/-! ## The host launcher (lines 388-470) -/

/-- The byte count `smem_softmax` of line 414. -/
def smem_softmax (WavefrontsPerBlock : Nat) : Int := T_MAX * 4 + WavefrontsPerBlock * 4

/-- The byte count `smem_output` of lines 415-416. -/
def smem_output (WavefrontsPerBlock : Nat) : Int := D_H * 4 * WavefrontsPerBlock

/-- The byte count `smem_size` of line 417. -/
def smem_size (WavefrontsPerBlock : Nat) : Int :=
  max (smem_softmax WavefrontsPerBlock) (smem_output WavefrontsPerBlock)

/-- The checks of lines 400-407 and the element type switch of lines 420-425, in
order; `none` when all pass and the kernel is launched, otherwise the failed check. -/
def hostChecks (XQ cache_K cache_V : Tensor α) (seq_positions : IntTensor) :
    Option String :=
  if ¬ XQ.is_cuda then some "XQ.is_cuda()"
  else if ¬ cache_K.is_cuda then some "cache_K.is_cuda()"
  else if ¬ cache_V.is_cuda then some "cache_V.is_cuda()"
  else if ¬ seq_positions.is_cuda then some "seq_positions.is_cuda()"
  else if ¬ cache_K.size 1 ≤ T_MAX then some "cache_K.size(1) <= T_MAX"
  else if ¬ cache_K.size 3 = D_H then some "cache_K.size(3) == D_H"
  else match XQ.scalar_type with
    | ScalarType.Half => none
    | ScalarType.BFloat16 => none
    | ScalarType.Float => none
    | _ => some "efficient_attention_forward_decoder_ck not implemented for this type"

/-- The launch that the launcher makes once its checks pass. -/
def launchOf (WavefrontsPerBlock : Nat) (XQ cache_K cache_V : Tensor α)
    (seq_positions : IntTensor) (qk_scale : α) (smem : Nat → Nat → Int → α) : Launch α :=
  { XQ := XQ, cache_K := cache_K, cache_V := cache_V, seq_positions := seq_positions,
    qk_scale := qk_scale, wavefronts_per_block := WavefrontsPerBlock, smem := smem }

/-- The function `efficient_attention_forward_decoder_ck_out_impl<64, WavefrontsPerBlock>`:
the failed check, or the output tensor after the launch over `B x H` blocks with
`B = XQ.size(0)` and `H = XQ.size(2)`. -/
def efficient_attention_forward_decoder_ck_out_impl (expf : α → α)
    (WavefrontsPerBlock : Nat) (XQ cache_K cache_V : Tensor α) (seq_positions : IntTensor)
    (qk_scale : α) (O : Tensor α) (smem : Nat → Nat → Int → α) :
    Except String (Tensor α) :=
  match hostChecks XQ cache_K cache_V seq_positions with
  | some e => Except.error e
  | none =>
    Except.ok { O with
      data := efficient_attention_forward_decoder_ck_kernel expf
        (launchOf WavefrontsPerBlock XQ cache_K cache_V seq_positions qk_scale smem)
        (XQ.size 0) (XQ.size 2) O.data }

/-- The function `efficient_attention_forward_decoder_ck_impl<64, WavefrontsPerBlock>`:
the output tensor is allocated by `at::empty_like(XQ)`, with unspecified elements
`O_init`, and passed to the launcher. -/
def efficient_attention_forward_decoder_ck_impl (expf : α → α) (WavefrontsPerBlock : Nat)
    (XQ cache_K cache_V : Tensor α) (seq_positions : IntTensor) (qk_scale : α)
    (O_init : Int → Int → Int → Int → α) (smem : Nat → Nat → Int → α) :
    Except String (Tensor α) :=
  efficient_attention_forward_decoder_ck_out_impl expf WavefrontsPerBlock XQ cache_K cache_V
    seq_positions qk_scale { XQ with data := O_init } smem

/-- The operator `efficient_attention_forward_decoder_ck`, registered with
`kThreadsPerWavefront` lanes and `kWavefrontsPerBlock` groups. -/
def efficient_attention_forward_decoder_ck (expf : α → α)
    (XQ cache_K cache_V : Tensor α) (seq_positions : IntTensor) (qk_scale : α)
    (O_init : Int → Int → Int → Int → α) (smem : Nat → Nat → Int → α) :
    Except String (Tensor α) :=
  efficient_attention_forward_decoder_ck_impl expf kWavefrontsPerBlock XQ cache_K cache_V
    seq_positions qk_scale O_init smem

/-! ## Auxiliary notions for the claims -/

/-- A cache of head extent `H` in which the rows of head 0 of `T` are replicated for
every head. -/
def Tensor.replicateHeads (T : Tensor α) (H : Nat) : Tensor α :=
  { T with
    sizes := [T.size 0, T.size 1, H, T.size 3]
    data := fun b t _ d => T.data b t 0 d }

/-- The launch in which the key and value caches are replaced by their replications
over `H` heads. -/
def Launch.replicateHeads (L : Launch α) (H : Nat) : Launch α :=
  { L with
    cache_K := L.cache_K.replicateHeads H
    cache_V := L.cache_V.replicateHeads H }

/-- Float offsets of the working buffer that the lanes of a block access: the score
slots of the score and accumulation stages, the staging slots, the score slots of
the two softmax loops, and the four floats of the vector slot of every lane. -/
def smemAccesses (wavefronts_per_block : Nat) (t_max : Int) : List Int :=
  blockPositions wavefronts_per_block t_max
    ++ (List.range wavefronts_per_block).map (fun (w : Nat) => (T_MAX : Int) + (w : Int))
    ++ threadPositions wavefronts_per_block t_max
    ++ (List.range wavefronts_per_block).flatMap fun w =>
        (List.range kThreadsPerWavefront).flatMap fun lane_idx =>
          (List.range 4).map fun (i : Nat) => 4 * thread_linear_idx w lane_idx + (i : Int)

/-- A tensor on the device with the given element type, extents and elements. -/
def deviceTensor (ty : ScalarType) (sizes : List Nat) (data : Int → Int → Int → Int → α) :
    Tensor α :=
  { is_cuda := true, scalar_type := ty, sizes := sizes, data := data }

/-- A tensor on the device with the given element type and extents, all of whose
elements are `c`. -/
def constTensor (ty : ScalarType) (sizes : List Nat) (c : α) : Tensor α :=
  deviceTensor ty sizes fun _ _ _ _ => c

/-- A tensor of valid lengths on the device, all equal to `n`. -/
def constLengths (n : Int) : IntTensor := { is_cuda := true, data := fun _ => n }

end Kernel

/-! ## Properties of `wavefrontReduce` -/

section Reduce

variable {α : Type}

/-- The loop of `wavefrontReduce` makes exactly the six passes with masks
`32, 16, 8, 4, 2, 1` and exits with fuel to spare. -/
theorem wavefrontReduce_unrolled (f : α → α → α) (val : Nat → α) :
    wavefrontReduce val f = butterfly f 6 val := rfl

theorem xor_pow_two_lt : ∀ k < 6, ∀ j < 64,
    j ^^^ 2 ^ k = if (j / 2 ^ k) % 2 = 0 then j + 2 ^ k else j - 2 ^ k := by
  decide

theorem blockFold_distrib (f : α → α → α)
    (hassoc : ∀ a b c, f (f a b) c = f a (f b c)) (hcomm : ∀ a b, f a b = f b a)
    (g h : Nat → α) (k : Nat) :
    ∀ b, blockFold f (fun j => f (g j) (h j)) b k
      = f (blockFold f g b k) (blockFold f h b k) := by
  induction k with
  | zero => intro b; rfl
  | succ k ih =>
    intro b
    simp only [blockFold, ih]
    rw [hassoc, hassoc]
    congr 1
    rw [← hassoc, ← hassoc, hcomm (blockFold f h b k)]

theorem blockFold_congr (f : α → α → α) (g h : Nat → α) (k : Nat) :
    ∀ b, (∀ j, b ≤ j → j < b + 2 ^ k → g j = h j) →
      blockFold f g b k = blockFold f h b k := by
  induction k with
  | zero =>
    intro b H
    exact H b (le_refl b) (by simp)
  | succ k ih =>
    intro b H
    have h2 : 2 ^ (k + 1) = 2 ^ k + 2 ^ k := by ring
    simp only [blockFold]
    rw [ih b (fun j h1 h3 => H j h1 (by omega)),
      ih (b + 2 ^ k) (fun j h1 h3 => H j (by omega) (by omega))]

theorem blockFold_shift (f : α → α → α) (val : Nat → α) (c k : Nat) :
    ∀ b, blockFold f (fun j => val (j + c)) b k = blockFold f val (b + c) k := by
  induction k with
  | zero => intro b; rfl
  | succ k ih =>
    intro b
    simp only [blockFold, ih]
    rw [Nat.add_right_comm b (2 ^ k) c]

theorem blockFold_shift_sub (f : α → α → α) (val : Nat → α) (c k b : Nat) :
    blockFold f (fun j => val (j - c)) (b + c) k = blockFold f val b k := by
  rw [← blockFold_shift f (fun j => val (j - c)) c k b]
  simp

/-- One pass with mask `2^k` turns the combination over an aligned block of `2^k`
lanes into the combination over the aligned block of `2^(k+1)` lanes. -/
theorem blockFold_shflStep (f : α → α → α)
    (hassoc : ∀ a b c, f (f a b) c = f a (f b c)) (hcomm : ∀ a b, f a b = f b a)
    (val : Nat → α) (k : Nat) (hk : k < 6) (i : Nat) (hi : i < 64) :
    blockFold f (shflStep f (2 ^ k) val) (i / 2 ^ k * 2 ^ k) k
      = blockFold f val (i / 2 ^ (k + 1) * 2 ^ (k + 1)) (k + 1) := by
  have hx := xor_pow_two_lt k hk
  by_cases hb : (i / 2 ^ k) % 2 = 0
  · have hB : i / 2 ^ (k + 1) * 2 ^ (k + 1) = i / 2 ^ k * 2 ^ k := by
      interval_cases k <;> omega
    rw [blockFold_congr f (shflStep f (2 ^ k) val) (fun j => f (val (j + 2 ^ k)) (val j))]
    · rw [blockFold_distrib f hassoc hcomm, blockFold_shift, hB, hcomm]
      rfl
    · intro j h1 h2
      have hj : j < 64 ∧ (j / 2 ^ k) % 2 = 0 := by
        interval_cases k <;> omega
      simp only [shflStep, hx j hj.1, hj.2, if_true]
  · have hB : i / 2 ^ (k + 1) * 2 ^ (k + 1) + 2 ^ k = i / 2 ^ k * 2 ^ k := by
      interval_cases k <;> omega
    rw [blockFold_congr f (shflStep f (2 ^ k) val) (fun j => f (val (j - 2 ^ k)) (val j))]
    · rw [blockFold_distrib f hassoc hcomm, ← hB, blockFold_shift_sub]
      rfl
    · intro j h1 h2
      have hj : j < 64 ∧ ¬ (j / 2 ^ k) % 2 = 0 := by
        interval_cases k <;> omega
      simp only [shflStep, hx j hj.1, hj.2, if_false]

theorem butterfly_eq_blockFold (f : α → α → α)
    (hassoc : ∀ a b c, f (f a b) c = f a (f b c)) (hcomm : ∀ a b, f a b = f b a) :
    ∀ k, k ≤ 6 → ∀ (val : Nat → α) (i : Nat), i < 64 →
      butterfly f k val i = blockFold f val (i / 2 ^ k * 2 ^ k) k := by
  intro k
  induction k with
  | zero => intro _ val i _; simp [butterfly, blockFold]
  | succ k ih =>
    intro hk val i hi
    simp only [butterfly]
    rw [ih (by omega) _ i hi, blockFold_shflStep f hassoc hcomm val k (by omega) i hi]

/-- After `wavefrontReduce`, every lane holds the balanced combination of all 64
lane values. -/
theorem wavefrontReduce_eq_blockFold (f : α → α → α)
    (hassoc : ∀ a b c, f (f a b) c = f a (f b c)) (hcomm : ∀ a b, f a b = f b a)
    (val : Nat → α) (i : Nat) (hi : i < 64) :
    wavefrontReduce val f i = blockFold f val 0 6 := by
  rw [wavefrontReduce_unrolled, butterfly_eq_blockFold f hassoc hcomm 6 (le_refl 6) val i hi]
  have : i / 2 ^ 6 * 2 ^ 6 = 0 := by omega
  rw [this]

theorem foldl_assoc_left (f : α → α → α)
    (hassoc : ∀ a b c, f (f a b) c = f a (f b c)) (l : List α) :
    ∀ a y, List.foldl f (f a y) l = f a (List.foldl f y l) := by
  induction l with
  | nil => intro a y; rfl
  | cons x l ih =>
    intro a y
    simp only [List.foldl_cons]
    rw [hassoc, ih]

theorem blockFold_eq_foldl (f : α → α → α)
    (hassoc : ∀ a b c, f (f a b) c = f a (f b c)) (val : Nat → α) (k : Nat) :
    ∀ b, blockFold f val b k
      = List.foldl f (val b) ((List.range' (b + 1) (2 ^ k - 1)).map val) := by
  induction k with
  | zero => intro b; simp [blockFold]
  | succ k ih =>
    intro b
    have hpos : 0 < 2 ^ k := Nat.two_pow_pos k
    have hsplit : List.range' (b + 1) (2 ^ (k + 1) - 1)
        = List.range' (b + 1) (2 ^ k - 1) ++ (b + 2 ^ k) ::
            List.range' (b + 2 ^ k + 1) (2 ^ k - 1) := by
      have h1 : 2 ^ (k + 1) - 1 = (1 + (2 ^ k - 1)) + (2 ^ k - 1) := by
        have : 2 ^ (k + 1) = 2 ^ k + 2 ^ k := by ring
        omega
      rw [h1, ← List.range'_append (b + 1) (2 ^ k - 1) (1 + (2 ^ k - 1)) 1]
      congr 1
      have h2 : b + 1 + 1 * (2 ^ k - 1) = b + 2 ^ k := by omega
      rw [h2, Nat.add_comm 1 (2 ^ k - 1), List.range'_succ]
    simp only [blockFold]
    rw [hsplit, List.map_append, List.map_cons, List.foldl_append, List.foldl_cons,
      foldl_assoc_left f hassoc, ← ih b, ← ih (b + 2 ^ k)]

theorem blockFold_add [AddCommMonoid α] (val : Nat → α) (k : Nat) :
    ∀ b, blockFold (fun x y => x + y) val b k = ∑ j in Finset.range (2 ^ k), val (b + j) := by
  induction k with
  | zero => intro b; simp [blockFold]
  | succ k ih =>
    intro b
    have h2 : 2 ^ (k + 1) = 2 ^ k + 2 ^ k := by ring
    simp only [blockFold]
    rw [h2, Finset.sum_range_add, ih b, ih (b + 2 ^ k)]
    simp only [Nat.add_assoc]

theorem blockFold_max_ge [LinearOrder α] (val : Nat → α) (k : Nat) :
    ∀ b j, j < 2 ^ k → val (b + j) ≤ blockFold max val b k := by
  induction k with
  | zero =>
    intro b j hj
    have : j = 0 := by simpa using hj
    subst this
    simp [blockFold]
  | succ k ih =>
    intro b j hj
    have h2 : 2 ^ (k + 1) = 2 ^ k + 2 ^ k := by ring
    simp only [blockFold]
    by_cases hlt : j < 2 ^ k
    · exact le_trans (ih b j hlt) (le_max_left _ _)
    · have := ih (b + 2 ^ k) (j - 2 ^ k) (by omega)
      have e : b + 2 ^ k + (j - 2 ^ k) = b + j := by omega
      rw [e] at this
      exact le_trans this (le_max_right _ _)

theorem blockFold_max_mem [LinearOrder α] (val : Nat → α) (k : Nat) :
    ∀ b, ∃ j, j < 2 ^ k ∧ blockFold max val b k = val (b + j) := by
  induction k with
  | zero => intro b; exact ⟨0, by simp, by simp [blockFold]⟩
  | succ k ih =>
    intro b
    have h2 : 2 ^ (k + 1) = 2 ^ k + 2 ^ k := by ring
    obtain ⟨j1, hj1, e1⟩ := ih b
    obtain ⟨j2, hj2, e2⟩ := ih (b + 2 ^ k)
    simp only [blockFold]
    rcases max_choice (blockFold max val b k) (blockFold max val (b + 2 ^ k) k) with h | h
    · exact ⟨j1, by omega, by rw [h, e1]⟩
    · exact ⟨2 ^ k + j2, by omega, by rw [h, e2, Nat.add_assoc]⟩

theorem blockFold_max [LinearOrder α] (val : Nat → α) :
    blockFold max val 0 6 = (Finset.range 64).sup' ⟨0, by simp⟩ val := by
  apply le_antisymm
  · obtain ⟨j, hj, e⟩ := blockFold_max_mem val 6 0
    rw [e]
    exact Finset.le_sup' val (by simpa using hj)
  · apply Finset.sup'_le
    intro j hj
    have := blockFold_max_ge val 6 0 j (by simpa using hj)
    simpa using this

/-- Sum reduction: every lane receives the sum of the 64 lane values. -/
theorem wavefrontReduce_add [AddCommMonoid α] (val : Nat → α) (i : Nat) (hi : i < 64) :
    wavefrontReduce val (fun a b => a + b) i = ∑ j in Finset.range 64, val j := by
  rw [wavefrontReduce_eq_blockFold _ (fun a b c => add_assoc a b c)
    (fun a b => add_comm a b) val i hi, blockFold_add]
  simp

/-- Max reduction: every lane receives the maximum of the 64 lane values. -/
theorem wavefrontReduce_max [LinearOrder α] (val : Nat → α) (i : Nat) (hi : i < 64) :
    wavefrontReduce val max i = (Finset.range 64).sup' ⟨0, by simp⟩ val := by
  rw [wavefrontReduce_eq_blockFold _ (fun a b c => max_assoc a b c)
    (fun a b => max_comm a b) val i hi, blockFold_max]

end Reduce

/-! ## Claim C6 -/

/-- C6. For every associative and commutative operator `f` and every assignment of
values to the 64 lanes, after the butterfly passes of `wavefrontReduce` every lane
`i < 64` holds `f` folded over all 64 values `v 0, ..., v 63`; for `f = +` this is the
sum of the 64 values and for `f = max` it is their maximum. -/
theorem wavefrontReduce_all_lanes {α β γ : Type} [AddCommMonoid β] [LinearOrder γ]
    (f : α → α → α)
    (hassoc : ∀ a b c, f (f a b) c = f a (f b c)) (hcomm : ∀ a b, f a b = f b a)
    (v : Nat → α) (u : Nat → β) (m : Nat → γ) (i : Nat) (hi : i < 64) :
    wavefrontReduce v f i = foldLanes f v
    ∧ wavefrontReduce u (fun a b => a + b) i = ∑ j in Finset.range 64, u j
    ∧ wavefrontReduce m max i = (Finset.range 64).sup' ⟨0, by simp⟩ m := by
  refine ⟨?_, wavefrontReduce_add u i hi, wavefrontReduce_max m i hi⟩
  rw [wavefrontReduce_eq_blockFold f hassoc hcomm v i hi, blockFold_eq_foldl f hassoc]
  rfl

/-- Witness for `wavefrontReduce_all_lanes`: integer addition, with lane `j` holding
`j`, seen from lane 5. -/
theorem wavefrontReduce_all_lanes_witness :
    (5 : Nat) < 64
    ∧ wavefrontReduce (fun j => (j : Int)) (fun a b => a + b) 5
        = foldLanes (fun a b => a + b) (fun j => (j : Int))
    ∧ foldLanes (fun a b => a + b) (fun j => (j : Int)) = 2016 :=
  ⟨by decide,
   (wavefrontReduce_all_lanes (fun a b : Int => a + b) (fun a b c => Int.add_assoc a b c)
      (fun a b => Int.add_comm a b) (fun j => (j : Int)) (fun j => (j : Int))
      (fun j => j) 5 (by decide)).1,
   by decide⟩

/-! ## Loop counters -/

section Loops

theorem loopIters_sound (bound step : Int) :
    ∀ (fuel : Nat) (tt t : Int), t ∈ loopIters fuel tt bound step →
      t < bound ∧ ∃ k : Nat, t = tt + k * step := by
  intro fuel
  induction fuel with
  | zero => intro tt t h; simp [loopIters] at h
  | succ fuel ih =>
    intro tt t h
    simp only [loopIters] at h
    split at h
    · rcases List.mem_cons.1 h with h | h
      · subst h
        exact ⟨by assumption, 0, by simp⟩
      · obtain ⟨h1, k, hk⟩ := ih _ _ h
        refine ⟨h1, k + 1, ?_⟩
        rw [hk]; push_cast; ring
    · simp at h

theorem loopIters_complete (bound step : Int) (hstep : 0 < step) :
    ∀ (fuel : Nat) (tt : Int), (bound - tt).toNat ≤ fuel →
      ∀ (k : Nat), tt + k * step < bound → tt + k * step ∈ loopIters fuel tt bound step := by
  intro fuel
  induction fuel with
  | zero =>
    intro tt hf k hk
    have h0 : 0 ≤ (k : Int) * step := mul_nonneg (Int.ofNat_nonneg k) (le_of_lt hstep)
    omega
  | succ fuel ih =>
    intro tt hf k hk
    have h0 : 0 ≤ (k : Int) * step := mul_nonneg (Int.ofNat_nonneg k) (le_of_lt hstep)
    have htt : tt < bound := by omega
    simp only [loopIters, htt, if_true]
    cases k with
    | zero => simp
    | succ k =>
      have e : tt + ((k + 1 : Nat) : Int) * step = (tt + step) + k * step := by
        push_cast; ring
      rw [e]
      apply List.mem_cons_of_mem
      apply ih (tt + step) (by omega) k
      rw [← e]; exact hk

/-- The counter of `for (tt = start; tt < bound; tt += step)` takes exactly the values
`start + k * step` below `bound`: the fuel of `forIters` is never exhausted. -/
theorem mem_forIters (start bound step : Int) (hstep : 0 < step) (t : Int) :
    t ∈ forIters start bound step ↔ t < bound ∧ ∃ k : Nat, t = start + k * step := by
  constructor
  · exact loopIters_sound bound step _ _ _
  · rintro ⟨h1, k, rfl⟩
    exact loopIters_complete bound step hstep _ _ (le_refl _) k h1

theorem loopIters_sorted (bound step : Int) (hstep : 0 < step) :
    ∀ (fuel : Nat) (tt : Int),
      (loopIters fuel tt bound step).Pairwise (fun a b => a + step ≤ b) := by
  intro fuel
  induction fuel with
  | zero => intro tt; simp [loopIters]
  | succ fuel ih =>
    intro tt
    simp only [loopIters]
    split
    · refine List.pairwise_cons.2 ⟨?_, ih _⟩
      intro t ht
      obtain ⟨_, k, hk⟩ := loopIters_sound bound step _ _ _ ht
      have h0 : 0 ≤ (k : Int) * step := mul_nonneg (Int.ofNat_nonneg k) (le_of_lt hstep)
      omega
    · exact List.Pairwise.nil

/-- Successive values of a loop counter are at least one step apart. -/
theorem forIters_sorted_step (start bound step : Int) (hstep : 0 < step) :
    (forIters start bound step).Pairwise (fun a b => a + step ≤ b) :=
  loopIters_sorted bound step hstep _ _

theorem forIters_sorted (start bound step : Int) (hstep : 0 < step) :
    (forIters start bound step).Pairwise (fun a b => a < b) :=
  (forIters_sorted_step start bound step hstep).imp (fun h => by omega)

theorem forIters_nodup (start bound step : Int) (hstep : 0 < step) :
    (forIters start bound step).Nodup :=
  (forIters_sorted start bound step hstep).imp (fun h => ne_of_lt h)

theorem forIters_eq_nil (start bound step : Int) (h : bound ≤ start) :
    forIters start bound step = [] := by
  unfold forIters
  have : (bound - start).toNat = 0 := by omega
  rw [this]
  rfl

end Loops

/-! ## Folds -/

section Folds

variable {α : Type}

theorem foldl_update_apply {ι : Type} [DecidableEq ι] (g : ι → α) (l : List ι) :
    ∀ (sm : ι → α) (p : ι),
      (l.foldl (fun sm t => Function.update sm t (g t)) sm) p = if p ∈ l then g p else sm p := by
  induction l with
  | nil => intro sm p; simp
  | cons a l ih =>
    intro sm p
    simp only [List.foldl_cons, ih, List.mem_cons]
    by_cases h1 : p ∈ l
    · simp [h1]
    · by_cases h2 : p = a
      · subst h2; simp [h1]
      · simp [h1, h2, Function.update_noteq h2]

theorem foldl_modify_apply {ι : Type} [DecidableEq ι] (F : α → α) (l : List ι) (hl : l.Nodup) :
    ∀ (sm : ι → α) (p : ι),
      (l.foldl (fun sm t => Function.update sm t (F (sm t))) sm) p
        = if p ∈ l then F (sm p) else sm p := by
  induction l with
  | nil => intro sm p; simp
  | cons a l ih =>
    intro sm p
    have hnd := List.nodup_cons.1 hl
    simp only [List.foldl_cons, ih hnd.2, List.mem_cons]
    by_cases h1 : p ∈ l
    · have h2 : p ≠ a := fun h => hnd.1 (h ▸ h1)
      simp [h1, h2, Function.update_noteq h2]
    · by_cases h2 : p = a
      · subst h2; simp [h1]
      · simp [h1, h2, Function.update_noteq h2]

theorem foldl_flatMap' {ι κ σ : Type} (f : σ → κ → σ) (g : ι → List κ) (l : List ι) :
    ∀ s : σ, (l.flatMap g).foldl f s = l.foldl (fun s x => (g x).foldl f s) s := by
  induction l with
  | nil => intro s; rfl
  | cons a l ih => intro s; simp [List.flatMap_cons, List.foldl_append, ih]

theorem foldl_filter' {κ σ : Type} (f : σ → κ → σ) (p : κ → Bool) (l : List κ) :
    ∀ s : σ, (l.filter p).foldl f s = l.foldl (fun s x => if p x then f s x else s) s := by
  induction l with
  | nil => intro s; rfl
  | cons a l ih =>
    intro s
    by_cases h : p a <;> simp [List.filter_cons, h, ih]

theorem foldl_add_eq_sum {κ : Type} [AddCommMonoid α] (g : κ → α) (l : List κ) :
    ∀ a : α, l.foldl (fun acc t => acc + g t) a = a + (l.map g).sum := by
  induction l with
  | nil => intro a; simp
  | cons x l ih => intro a; simp [ih, add_assoc]

theorem sum_map_range {M : Type} [AddCommMonoid M] (f : Nat → M) (n : Nat) :
    ((List.range n).map f).sum = ∑ i in Finset.range n, f i := by
  induction n with
  | zero => simp
  | succ n ih => rw [List.sum_range_succ, Finset.sum_range_succ, ih]

end Folds
/-! ## Positions visited by the loops -/

theorem dtt_eq : dtt = 256 := by decide

theorem t_max_unroll_eq (t_max : Int) (h : 0 ≤ t_max) :
    t_max_unroll t_max = t_max / 256 * 256 := by
  unfold t_max_unroll
  rw [dtt_eq, Int.tdiv_eq_ediv h (by decide)]

theorem mem_mainLoopIters (w : Nat) (t_max tt : Int) :
    tt ∈ mainLoopIters w t_max ↔
      tt < t_max_unroll t_max ∧ ∃ k : Nat, tt = 16 * (w : Int) + 256 * (k : Int) := by
  unfold mainLoopIters
  rw [mem_forIters _ _ _ (by decide), dtt_eq]
  simp only [n_loop_unroll, Nat.cast_ofNat]
  constructor
  · rintro ⟨h, k, hk⟩; exact ⟨h, k, by omega⟩
  · rintro ⟨h, k, hk⟩; exact ⟨h, k, by omega⟩

theorem mem_mainPositions (w : Nat) (t_max t : Int) :
    t ∈ mainPositions w t_max ↔
      16 * (w : Int) ≤ t ∧ (t - 16 * w) % 256 < 16 ∧
        t - (t - 16 * w) % 256 < t_max_unroll t_max := by
  unfold mainPositions
  simp only [List.mem_flatMap, List.mem_map, List.mem_range, mem_mainLoopIters, n_loop_unroll]
  constructor
  · rintro ⟨tt, ⟨h1, k, hk⟩, j, hj, rfl⟩
    omega
  · rintro ⟨h1, h2, h3⟩
    refine ⟨t - (t - 16 * w) % 256, ⟨h3, ((t - 16 * w) / 256).toNat, by omega⟩,
      ((t - 16 * w) % 256).toNat, by omega, by omega⟩

theorem mainPositions_sorted (w : Nat) (t_max : Int) :
    (mainPositions w t_max).Pairwise (fun a b => a < b) := by
  unfold mainPositions
  rw [List.pairwise_flatMap]
  constructor
  · intro tt _
    apply List.Pairwise.map _ _ (List.pairwise_lt_range _)
    intro a b hab
    omega
  · unfold mainLoopIters
    apply (forIters_sorted _ _ _ (by decide)).imp_of_mem
    intro a b ha hb hab x hx y hy
    rw [mem_forIters _ _ _ (by decide), dtt_eq] at ha hb
    simp only [List.mem_map, List.mem_range, n_loop_unroll] at hx hy
    obtain ⟨_, ka, hka⟩ := ha
    obtain ⟨_, kb, hkb⟩ := hb
    obtain ⟨i, hi, rfl⟩ := hx
    obtain ⟨j, hj, rfl⟩ := hy
    omega

theorem mem_tailPositions (W w : Nat) (hW : 0 < W) (t_max t : Int) :
    t ∈ tailPositions W w t_max ↔
      t < t_max ∧ ∃ k j : Nat, j < 2 ∧
        t = t_max_unroll t_max + 2 * (w : Int) + (k : Int) * ((W : Int) * 2) + (j : Int) := by
  have hstep : (0 : Int) < (W : Int) * (n_loop_unroll_tail : Int) := by
    simp only [n_loop_unroll_tail, Nat.cast_ofNat]; omega
  unfold tailPositions tailLoopIters
  simp only [List.mem_flatMap, List.mem_filter, List.mem_map, List.mem_range,
    mem_forIters _ _ _ hstep, decide_eq_true_eq]
  simp only [n_loop_unroll_tail, Nat.cast_ofNat]
  constructor
  · rintro ⟨tt, ⟨h1, k, hk⟩, ⟨j, hj, rfl⟩, h2⟩
    exact ⟨h2, k, j, hj, by omega⟩
  · rintro ⟨h1, k, j, hj, rfl⟩
    exact ⟨t_max_unroll t_max + 2 * (w : Int) + (k : Int) * ((W : Int) * 2),
      ⟨by omega, k, by omega⟩, ⟨j, hj, rfl⟩, h1⟩

theorem tailPositions_sorted (W w : Nat) (hW : 0 < W) (t_max : Int) :
    (tailPositions W w t_max).Pairwise (fun a b => a < b) := by
  have hstep : (0 : Int) < (W : Int) * (n_loop_unroll_tail : Int) := by
    simp only [n_loop_unroll_tail, Nat.cast_ofNat]; omega
  unfold tailPositions
  rw [List.pairwise_flatMap]
  constructor
  · intro tt _
    apply List.Pairwise.filter
    apply List.Pairwise.map _ _ (List.pairwise_lt_range _)
    intro a b hab
    omega
  · unfold tailLoopIters
    apply (forIters_sorted_step _ _ _ hstep).imp
    intro a b hab x hx y hy
    simp only [List.mem_filter, List.mem_map, List.mem_range, n_loop_unroll_tail] at hx hy
    simp only [n_loop_unroll_tail, Nat.cast_ofNat] at hab
    obtain ⟨⟨i, hi, rfl⟩, _⟩ := hx
    obtain ⟨⟨j, hj, rfl⟩, _⟩ := hy
    omega

theorem mem_stridedIters (W w lane : Nat) (hW : 0 < W) (t_max t : Int) :
    t ∈ stridedIters W w lane t_max ↔
      t < t_max ∧ ∃ k : Nat, t = (lane : Int) + 64 * (w : Int) + (k : Int) * (64 * (W : Int)) := by
  have hstep : (0 : Int) < threads_per_block W := by
    simp only [threads_per_block, kThreadsPerWavefront, Nat.cast_ofNat]; omega
  unfold stridedIters
  rw [mem_forIters _ _ _ hstep]
  simp only [threads_per_block, thread_linear_idx, kThreadsPerWavefront, Nat.cast_ofNat]
  constructor
  · rintro ⟨h, k, hk⟩; exact ⟨h, k, by omega⟩
  · rintro ⟨h, k, hk⟩; exact ⟨h, k, by omega⟩

theorem stridedIters_nodup (W w lane : Nat) (hW : 0 < W) (t_max : Int) :
    (stridedIters W w lane t_max).Nodup := by
  apply forIters_nodup
  simp only [threads_per_block, kThreadsPerWavefront, Nat.cast_ofNat]; omega

/-- An offset below the step is determined by any member of its progression. -/
theorem progression_offset_unique (S a b : Int) (k l : Nat) (ha : 0 ≤ a) (haS : a < S)
    (hb : 0 ≤ b) (hbS : b < S) (h : a + (k : Int) * S = b + (l : Int) * S) : a = b := by
  have h1 : (a + (k : Int) * S) % S = a := by
    rw [Int.add_mul_emod_self, Int.emod_eq_of_lt ha haS]
  have h2 : (b + (l : Int) * S) % S = b := by
    rw [Int.add_mul_emod_self, Int.emod_eq_of_lt hb hbS]
  rw [← h1, ← h2, h]

/-- The strided subsets of distinct lanes of a block are disjoint. -/
theorem stridedIters_disjoint (W w lane w2 lane2 : Nat) (hW : 0 < W) (hw : w < W)
    (hl : lane < 64) (hw2 : w2 < W) (hl2 : lane2 < 64) (t_max t : Int)
    (h1 : t ∈ stridedIters W w lane t_max) (h2 : t ∈ stridedIters W w2 lane2 t_max) :
    w = w2 ∧ lane = lane2 := by
  rw [mem_stridedIters _ _ _ hW] at h1 h2
  obtain ⟨_, k, hk⟩ := h1
  obtain ⟨_, l, hl'⟩ := h2
  have := progression_offset_unique (64 * (W : Int)) ((lane : Int) + 64 * (w : Int))
    ((lane2 : Int) + 64 * (w2 : Int)) k l (by omega) (by omega) (by omega) (by omega)
    (by omega)
  omega

theorem threadPositions_nodup (W : Nat) (hW : 0 < W) (t_max : Int) :
    (threadPositions W t_max).Nodup := by
  unfold threadPositions
  rw [List.nodup_flatMap]
  constructor
  · intro w hw
    rw [List.nodup_flatMap]
    constructor
    · intro lane _
      exact stridedIters_nodup W w lane hW t_max
    · apply (List.nodup_range _).pairwise_of_forall_ne
      intro a ha b hb hab t h1 h2
      simp only [List.mem_range, kThreadsPerWavefront] at ha hb hw
      have := stridedIters_disjoint W w a w b hW hw ha hw hb t_max t h1 h2
      exact hab this.2
  · apply (List.nodup_range _).pairwise_of_forall_ne
    intro a ha b hb hab t h1 h2
    simp only [List.mem_flatMap, List.mem_range, kThreadsPerWavefront] at ha hb h1 h2
    obtain ⟨l1, hl1, m1⟩ := h1
    obtain ⟨l2, hl2, m2⟩ := h2
    have := stridedIters_disjoint W a l1 b l2 hW ha hl1 hb hl2 t_max t m1 m2
    exact hab this.1

theorem mem_threadPositions (W : Nat) (hW : 0 < W) (t_max t : Int) :
    t ∈ threadPositions W t_max ↔ 0 ≤ t ∧ t < t_max := by
  unfold threadPositions
  simp only [List.mem_flatMap, List.mem_range, kThreadsPerWavefront, mem_stridedIters _ _ _ hW]
  constructor
  · rintro ⟨w, hw, lane, hl, h, k, hk⟩
    have h0 : 0 ≤ (k : Int) * (64 * (W : Int)) :=
      mul_nonneg (Int.ofNat_nonneg k) (by omega)
    omega
  · rintro ⟨h0, h1⟩
    obtain ⟨n, rfl⟩ := Int.eq_ofNat_of_zero_le h0
    have hS : 0 < 64 * W := by omega
    have hr : n % (64 * W) < 64 * W := Nat.mod_lt _ hS
    have hn : n % (64 * W) + 64 * W * (n / (64 * W)) = n := Nat.mod_add_div _ _
    refine ⟨n % (64 * W) / 64, by omega, n % (64 * W) % 64, by omega, h1, n / (64 * W), ?_⟩
    have e : ((n % (64 * W) % 64 : Nat) : Int) + 64 * ((n % (64 * W) / 64 : Nat) : Int)
        = ((n % (64 * W) : Nat) : Int) := by omega
    rw [e]
    have : ((n : Nat) : Int) = ((n % (64 * W) + 64 * W * (n / (64 * W)) : Nat) : Int) := by
      rw [hn]
    rw [this]
    push_cast
    ring

theorem mem_groupPositions_16 (w : Nat) (hw : w < 16) (t_max t : Int) (h0 : 0 ≤ t_max) :
    t ∈ groupPositions 16 w t_max ↔
      0 ≤ t ∧ t < t_max ∧
        ((t < t_max / 256 * 256 ∧ t % 256 / 16 = w) ∨
         (t_max / 256 * 256 ≤ t ∧ (t - t_max / 256 * 256) / 2 % 16 = w)) := by
  unfold groupPositions
  rw [List.mem_append, mem_mainPositions, mem_tailPositions _ _ (by decide),
    t_max_unroll_eq _ h0]
  simp only [Nat.cast_ofNat]
  constructor
  · rintro (⟨h1, h2, h3⟩ | ⟨h1, k, j, hj, h2⟩)
    · omega
    · omega
  · rintro ⟨h1, h2, (⟨h3, h4⟩ | ⟨h3, h4⟩)⟩
    · left; omega
    · right
      refine ⟨h2, ((t - t_max / 256 * 256) / 32).toNat, ((t - t_max / 256 * 256) % 2).toNat,
        by omega, by omega⟩

theorem mem_blockPositions_16 (t_max t : Int) (h0 : 0 ≤ t_max) :
    t ∈ blockPositions 16 t_max ↔ 0 ≤ t ∧ t < t_max := by
  unfold blockPositions
  simp only [List.mem_flatMap, List.mem_range]
  constructor
  · rintro ⟨w, hw, h⟩
    rw [mem_groupPositions_16 w hw _ _ h0] at h
    exact ⟨h.1, h.2.1⟩
  · rintro ⟨h1, h2⟩
    by_cases h3 : t < t_max / 256 * 256
    · refine ⟨(t % 256 / 16).toNat, by omega, ?_⟩
      rw [mem_groupPositions_16 _ (by omega) _ _ h0]
      omega
    · refine ⟨((t - t_max / 256 * 256) / 2 % 16).toNat, by omega, ?_⟩
      rw [mem_groupPositions_16 _ (by omega) _ _ h0]
      omega

theorem groupPositions_nodup (W w : Nat) (hW : 0 < W) (t_max : Int) :
    (groupPositions W w t_max).Nodup := by
  unfold groupPositions
  rw [List.nodup_append]
  refine ⟨(mainPositions_sorted w t_max).imp (fun h => ne_of_lt h),
    (tailPositions_sorted W w hW t_max).imp (fun h => ne_of_lt h), ?_⟩
  intro t h1 h2
  rw [mem_mainPositions] at h1
  rw [mem_tailPositions _ _ hW] at h2
  obtain ⟨_, k, j, _, h2⟩ := h2
  have h0 : 0 ≤ (k : Int) * ((W : Int) * 2) := mul_nonneg (Int.ofNat_nonneg k) (by omega)
  have hU : t_max_unroll t_max = t_max.tdiv 256 * 256 := by
    unfold t_max_unroll; rw [dtt_eq]
  omega

theorem blockPositions_16_nodup (t_max : Int) (h0 : 0 ≤ t_max) :
    (blockPositions 16 t_max).Nodup := by
  unfold blockPositions
  rw [List.nodup_flatMap]
  constructor
  · intro w _
    exact groupPositions_nodup 16 w (by decide) t_max
  · apply (List.nodup_range _).pairwise_of_forall_ne
    intro a ha b hb hab t h1 h2
    rw [List.mem_range] at ha hb
    rw [mem_groupPositions_16 _ ha _ _ h0] at h1
    rw [mem_groupPositions_16 _ hb _ _ h0] at h2
    omega

/-- The list of the integers `0, ..., n - 1`. -/
theorem perm_range_of_mem {l : List Int} (hl : l.Nodup) (n : Nat)
    (hm : ∀ t, t ∈ l ↔ 0 ≤ t ∧ t < (n : Int)) :
    l.Perm ((List.range n).map (fun (i : Nat) => (i : Int))) := by
  rw [List.perm_ext_iff_of_nodup hl]
  · intro t
    rw [hm]
    simp only [List.mem_map, List.mem_range]
    constructor
    · rintro ⟨h1, h2⟩
      exact ⟨t.toNat, by omega, by omega⟩
    · rintro ⟨i, hi, rfl⟩
      omega
  · exact (List.nodup_range n).map (fun a b h => by simpa using h)

/-- With 16 groups, the positions visited in the score stage (and again in the
accumulation stage) are the positions `0, ..., n - 1`, each once. -/
theorem blockPositions_16_perm (n : Nat) :
    (blockPositions 16 (n : Int)).Perm ((List.range n).map (fun (i : Nat) => (i : Int))) :=
  perm_range_of_mem (blockPositions_16_nodup _ (by omega)) n
    (fun t => mem_blockPositions_16 _ t (by omega))

/-- For every number of groups, the score slots visited by the lanes of a block in a
softmax loop are the slots `0, ..., n - 1`, each once. -/
theorem threadPositions_perm (W : Nat) (hW : 0 < W) (n : Nat) :
    (threadPositions W (n : Int)).Perm ((List.range n).map (fun (i : Nat) => (i : Int))) :=
  perm_range_of_mem (threadPositions_nodup W hW _) n
    (fun t => mem_threadPositions W hW _ t)

/-! ## The score stage -/

section Score

variable {α : Type} [LinearOrderedField α]

theorem scoreMainBody_eq (q : Nat → Float4 α) (K : Int → Int → α) (sc : α) (tt : Int)
    (s : ScoreState α) :
    scoreMainBody q K sc tt s
      = ((List.range n_loop_unroll).map fun (ttt : Nat) => tt + (ttt : Int)).foldl
          (scoreAt q K sc) s := by
  unfold scoreMainBody
  rw [List.foldl_map]
  generalize List.range n_loop_unroll = l
  induction l generalizing s with
  | nil => rfl
  | cons a l ih =>
    simp only [List.foldl_cons]
    rw [← ih]
    rfl

theorem scoreTailBody_eq (q : Nat → Float4 α) (K : Int → Int → α) (sc : α) (t_max tt : Int)
    (s : ScoreState α) :
    scoreTailBody q K sc t_max tt s
      = (((List.range n_loop_unroll_tail).map fun (ttt : Nat) => tt + (ttt : Int)).filter
          fun t => decide (t < t_max)).foldl (scoreAt q K sc) s := by
  unfold scoreTailBody
  rw [foldl_filter', List.foldl_map]
  apply List.foldl_ext
  intro s ttt _
  by_cases h : tt + (ttt : Int) < t_max <;> simp [h, scoreAt]

theorem scoreWavefront_eq (q : Nat → Float4 α) (K : Int → Int → α) (sc : α) (W w : Nat)
    (t_max : Int) (smem : Int → α) :
    scoreWavefront q K sc W w t_max smem
      = (groupPositions W w t_max).foldl (scoreAt q K sc)
          { max_qk_acc := fun _ => floatLowest, smem := smem } := by
  unfold scoreWavefront groupPositions mainPositions tailPositions
  rw [List.foldl_append, foldl_flatMap', foldl_flatMap']
  simp only [scoreMainBody_eq, scoreTailBody_eq]

theorem foldl_scoreAt_smem (q : Nat → Float4 α) (K : Int → Int → α) (sc : α) (l : List Int) :
    ∀ s : ScoreState α, (l.foldl (scoreAt q K sc) s).smem
      = l.foldl (fun sm t => Function.update sm t (qk_acc q K sc t 0)) s.smem := by
  induction l with
  | nil => intro s; rfl
  | cons a l ih => intro s; simp only [List.foldl_cons, ih]; rfl

theorem foldl_scoreAt_max (q : Nat → Float4 α) (K : Int → Int → α) (sc : α) (l : List Int) :
    ∀ (s : ScoreState α) (lane : Nat), (l.foldl (scoreAt q K sc) s).max_qk_acc lane
      = l.foldl (fun m t => max (qk_acc q K sc t lane) m) (s.max_qk_acc lane) := by
  induction l with
  | nil => intro s lane; rfl
  | cons a l ih => intro s lane; simp only [List.foldl_cons, ih]; rfl

theorem scoreStage_range (q : Nat → Float4 α) (K : Int → Int → α) (sc : α) (W : Nat)
    (t_max : Int) (smem : Int → α) (n : Nat) :
    ((List.range n).foldl
      (fun (acc : (Nat → Nat → α) × (Int → α)) w =>
        (Function.update acc.1 w (scoreWavefront q K sc W w t_max acc.2).max_qk_acc,
         (scoreWavefront q K sc W w t_max acc.2).smem))
      (fun _ _ => floatLowest, smem)).2
      = ((List.range n).flatMap fun w => groupPositions W w t_max).foldl
          (fun sm t => Function.update sm t (qk_acc q K sc t 0)) smem
    ∧ ∀ w lane, ((List.range n).foldl
      (fun (acc : (Nat → Nat → α) × (Int → α)) w =>
        (Function.update acc.1 w (scoreWavefront q K sc W w t_max acc.2).max_qk_acc,
         (scoreWavefront q K sc W w t_max acc.2).smem))
      (fun _ _ => floatLowest, smem)).1 w lane
      = if w < n then
          (groupPositions W w t_max).foldl (fun m t => max (qk_acc q K sc t lane) m) floatLowest
        else floatLowest := by
  induction n with
  | zero => simp
  | succ n ih =>
    obtain ⟨ih1, ih2⟩ := ih
    rw [List.range_succ, List.foldl_append, List.flatMap_append, List.foldl_append]
    simp only [List.foldl_cons, List.foldl_nil, List.flatMap_cons, List.flatMap_nil,
      List.append_nil]
    constructor
    · rw [scoreWavefront_eq, foldl_scoreAt_smem, ih1]
    · intro w lane
      by_cases hw : w = n
      · subst hw
        simp only [Function.update_same, Nat.lt_succ_self, if_true]
        rw [scoreWavefront_eq, foldl_scoreAt_max]
      · rw [Function.update_noteq hw, ih2]
        have : (w < n + 1) = (w < n) := by
          apply propext; omega
        simp only [this]

theorem scoreStage_smem (q : Nat → Float4 α) (K : Int → Int → α) (sc : α) (W : Nat)
    (t_max : Int) (smem : Int → α) (p : Int) :
    (scoreStage q K sc W t_max smem).2 p
      = if p ∈ blockPositions W t_max then qk_acc q K sc p 0 else smem p := by
  unfold scoreStage blockPositions
  rw [(scoreStage_range q K sc W t_max smem W).1, foldl_update_apply]

theorem scoreStage_max (q : Nat → Float4 α) (K : Int → Int → α) (sc : α) (W : Nat)
    (t_max : Int) (smem : Int → α) (w lane : Nat) (hw : w < W) :
    (scoreStage q K sc W t_max smem).1 w lane
      = (groupPositions W w t_max).foldl (fun m t => max (qk_acc q K sc t lane) m)
          floatLowest := by
  unfold scoreStage
  rw [(scoreStage_range q K sc W t_max smem W).2, if_pos hw]

/-- After the sum reduction every lane holds the same score. -/
theorem qk_acc_eq (q : Nat → Float4 α) (K : Int → Int → α) (sc : α) (t : Int) (lane : Nat)
    (hl : lane < 64) :
    qk_acc q K sc t lane
      = ∑ j in Finset.range 64, inner_product (q j) (load_v (K t) j) 0 * sc := by
  unfold qk_acc
  rw [wavefrontReduce_add _ lane hl]

theorem scoreStage_max_uniform (q : Nat → Float4 α) (K : Int → Int → α) (sc : α) (W : Nat)
    (t_max : Int) (smem : Int → α) (w lane : Nat) (hw : w < W) (hl : lane < 64) :
    (scoreStage q K sc W t_max smem).1 w lane = (scoreStage q K sc W t_max smem).1 w 0 := by
  rw [scoreStage_max _ _ _ _ _ _ _ _ hw, scoreStage_max _ _ _ _ _ _ _ _ hw]
  simp only [qk_acc_eq q K sc _ lane hl, qk_acc_eq q K sc _ 0 (by decide)]

end Score

/-! ## The softmax stages -/

section Softmax

variable {α : Type} [LinearOrderedField α]

theorem le_maxOver {β : Type} [LinearOrder β] (f : Nat → β) (n l : Nat) (hl : l < n) :
    f l ≤ maxOver n f := by
  induction n with
  | zero => omega
  | succ n ih =>
    simp only [maxOver]
    by_cases h : l = n
    · subst h; exact le_max_right _ _
    · exact le_trans (ih (by omega)) (le_max_left _ _)

theorem maxOver_mem {β : Type} [LinearOrder β] (f : Nat → β) (n : Nat) (hn : 0 < n) :
    ∃ l, l < n ∧ maxOver n f = f l := by
  induction n with
  | zero => omega
  | succ n ih =>
    simp only [maxOver]
    rcases max_choice (maxOver n f) (f n) with h | h
    · by_cases h0 : n = 0
      · subst h0
        exact ⟨0, by omega, by rw [h]; rfl⟩
      · obtain ⟨l, hl, e⟩ := ih (by omega)
        exact ⟨l, by omega, by rw [h, e]⟩
    · exact ⟨n, by omega, h⟩

omit [LinearOrderedField α] in
theorem stageWrite_apply (vals : Nat → Nat → α) (W : Nat) (smem : Int → α) (p : Int) :
    stageWrite vals W smem p
      = if 8192 ≤ p ∧ p < 8192 + (W : Int) then vals (p - 8192).toNat 0 else smem p := by
  unfold stageWrite
  have h := foldl_update_apply (fun t : Int => vals (t - 8192).toNat 0)
    ((List.range W).map fun (w : Nat) => (T_MAX : Int) + (w : Int)) smem p
  rw [List.foldl_map] at h
  simp only [T_MAX, Nat.cast_ofNat, add_sub_cancel_left, Int.toNat_ofNat, List.mem_map,
    List.mem_range] at h ⊢
  rw [h]
  have : (∃ a, a < W ∧ (8192 : Int) + (a : Int) = p) ↔ (8192 ≤ p ∧ p < 8192 + (W : Int)) := by
    constructor
    · rintro ⟨a, ha, rfl⟩; omega
    · rintro ⟨h1, h2⟩; exact ⟨(p - 8192).toNat, by omega, by omega⟩
  simp only [this]

omit [LinearOrderedField α] in
theorem stageWrite_low (vals : Nat → Nat → α) (W : Nat) (smem : Int → α) (p : Int)
    (hp : p < 8192) : stageWrite vals W smem p = smem p := by
  rw [stageWrite_apply, if_neg (by omega)]

omit [LinearOrderedField α] in
theorem stageWrite_slot (vals : Nat → Nat → α) (W : Nat) (smem : Int → α) (w : Nat)
    (hw : w < W) : stageWrite vals W smem ((T_MAX : Int) + (w : Int)) = vals w 0 := by
  rw [stageWrite_apply]
  simp only [T_MAX, Nat.cast_ofNat]
  rw [if_pos (by omega)]
  simp

theorem gt_lambda_eq_max : (fun a b : α => if a > b then a else b) = max := by
  funext a b
  rcases le_total a b with h | h
  · rw [max_eq_right h, if_neg (not_lt.2 h)]
  · rcases eq_or_lt_of_le h with h' | h'
    · subst h'; simp
    · rw [max_eq_left h, if_pos h']

/-- After lines 250-255 every lane of every group holds the maximum of the staged
group maxima. -/
theorem blockMax_eq (maxs : Nat → Nat → α) (W : Nat) (smem : Int → α) (hW : 0 < W)
    (hW64 : W ≤ 64) (w lane : Nat) (hw : w < W) (hl : lane < 64)
    (huni : ∀ l, l < 64 → maxs w l = maxs w 0)
    (hst : ∀ l, l < W → smem ((T_MAX : Int) + (l : Int)) = maxs l 0) :
    blockMax maxs W smem w lane = maxOver W (fun l => maxs l 0) := by
  unfold blockMax
  rw [gt_lambda_eq_max, wavefrontReduce_max _ lane hl]
  apply le_antisymm
  · apply Finset.sup'_le
    intro j hj
    have hj64 : j < 64 := by simpa using hj
    have h1 : maxs w j ≤ maxOver W (fun l => maxs l 0) := by
      rw [huni j hj64]
      exact le_maxOver (fun l => maxs l 0) W w hw
    show (if j < W then max (maxs w j) (smem ((T_MAX : Int) + (j : Int))) else maxs w j) ≤ _
    split
    · rename_i h
      rw [hst j h]
      exact max_le h1 (le_maxOver (fun l => maxs l 0) W j h)
    · exact h1
  · obtain ⟨l, hl', e⟩ := maxOver_mem (fun l => maxs l 0) W hW
    rw [e]
    have hmem : l ∈ Finset.range 64 := by simp; omega
    refine le_trans ?_ (Finset.le_sup' _ hmem)
    show maxs l 0 ≤ (if l < W then max (maxs w l) (smem ((T_MAX : Int) + (l : Int)))
      else maxs w l)
    rw [if_pos hl', hst l hl']
    exact le_max_right _ _

theorem expSum_eq (expf : α → α) (M : Nat → Nat → α) (W : Nat) (t_max : Int)
    (smem : Int → α) (w lane : Nat) (hl : lane < 64) :
    expSum expf M W t_max smem w lane
      = ∑ j in Finset.range 64,
          ((stridedIters W w j t_max).map fun t => expf (smem t - M w j)).sum := by
  unfold expSum
  rw [wavefrontReduce_add _ lane hl]
  apply Finset.sum_congr rfl
  intro j _
  rw [foldl_add_eq_sum, zero_add]

theorem blockSum_eq (W : Nat) (smem : Int → α) (hW64 : W ≤ 64) (w lane : Nat)
    (hl : lane < 64) :
    blockSum W smem w lane = ∑ l in Finset.range W, smem ((T_MAX : Int) + (l : Int)) := by
  unfold blockSum
  rw [wavefrontReduce_add _ lane hl, ← Finset.sum_filter]
  apply Finset.sum_congr
  · ext j
    simp only [Finset.mem_filter, Finset.mem_range]
    omega
  · intro _ _; rfl

theorem sum_map_flatMap_range {κ : Type} (f : Nat → List κ) (g : κ → α) (n : Nat) :
    (((List.range n).flatMap f).map g).sum = ∑ i in Finset.range n, ((f i).map g).sum := by
  induction n with
  | zero => simp
  | succ n ih =>
    rw [List.range_succ, List.flatMap_append, List.map_append, List.sum_append, ih,
      Finset.sum_range_succ]
    simp

/-- The block-wide denominator is the sum of the exponentials over the slots visited by
the lanes of the block. -/
theorem denominator_eq (expf : α → α) (M : Nat → Nat → α) (W : Nat) (t_max : Int)
    (smem : Int → α) (hW64 : W ≤ 64) (Mb : α)
    (hM : ∀ w, w < W → ∀ j, j < 64 → M w j = Mb) (w lane : Nat) (hl : lane < 64) :
    blockSum W (stageWrite (expSum expf M W t_max smem) W smem) w lane
      = ((threadPositions W t_max).map fun t => expf (smem t - Mb)).sum := by
  rw [blockSum_eq _ _ hW64 _ _ hl]
  unfold threadPositions
  rw [sum_map_flatMap_range]
  apply Finset.sum_congr rfl
  intro l hl'
  have hlW : l < W := by simpa using hl'
  rw [stageWrite_slot _ _ _ _ hlW, expSum_eq _ _ _ _ _ _ _ (by decide),
    sum_map_flatMap_range]
  apply Finset.sum_congr rfl
  intro j hj
  have hj64 : j < 64 := by simpa using hj
  rw [hM l hlW j hj64]

theorem normalize_eq (expf : α → α) (M den : Nat → Nat → α) (W : Nat) (t_max : Int)
    (smem : Int → α) (hW : 0 < W) (Mb D : α)
    (hM : ∀ w, w < W → ∀ j, j < 64 → M w j = Mb)
    (hD : ∀ w, w < W → ∀ j, j < 64 → den w j = D) (p : Int) :
    normalize expf M den W t_max smem p
      = if p ∈ threadPositions W t_max then expf (smem p - Mb) * (1 / D) else smem p := by
  rw [← foldl_modify_apply (fun x => expf (x - Mb) * (1 / D)) _
    (threadPositions_nodup W hW t_max) smem p]
  unfold normalize threadPositions
  rw [foldl_flatMap']
  refine congrFun ?_ p
  apply List.foldl_ext
  intro sm w hw
  rw [foldl_flatMap']
  apply List.foldl_ext
  intro sm lane hlane
  unfold normalizeLane
  rw [hM w (by simpa using hw) lane (by simpa [kThreadsPerWavefront] using hlane),
    hD w (by simpa using hw) lane (by simpa [kThreadsPerWavefront] using hlane)]

end Softmax

/-! ## The accumulation stage and the output reduction -/

section Accumulate

variable {α : Type} [LinearOrderedField α]

theorem Float4.get_zero (i : Nat) : (Float4.zero : Float4 α).get i = 0 := by
  unfold Float4.get Float4.zero
  split <;> rfl

theorem Float4.get_add (a b : Float4 α) (i : Nat) : (a.add b).get i = a.get i + b.get i := by
  unfold Float4.get Float4.add
  split <;> rfl

theorem get_scalar4_scale_acc (acc : Float4 α) (row : Int → α) (lane : Int) (b : α) (i : Nat)
    (hi : i < 4) :
    (scalar4_scale_acc acc (load_v row lane) b).get i
      = acc.get i + row (4 * lane + (i : Int)) * b := by
  interval_cases i <;> simp [Float4.get, scalar4_scale_acc, load_v]

omit [LinearOrderedField α] in
theorem get_load_v (row : Int → α) (lane : Int) (i : Nat) (hi : i < 4) :
    (load_v row lane).get i = row (4 * lane + (i : Int)) := by
  interval_cases i <;> simp [Float4.get, load_v]

theorem accMainBody_eq (V : Int → Int → α) (smem : Int → α) (tt : Int)
    (o : Nat → Float4 α) :
    accMainBody V smem tt o
      = ((List.range n_loop_unroll).map fun (ttt : Nat) => tt + (ttt : Int)).foldl
          (fun (o : Nat → Float4 α) (t : Int) (lane : Nat) =>
            scalar4_scale_acc (o lane) (load_v (V t) lane) (smem t)) o := by
  unfold accMainBody
  rw [List.foldl_map]

theorem accTailBody_eq (V : Int → Int → α) (smem : Int → α) (t_max tt : Int)
    (o : Nat → Float4 α) :
    accTailBody V smem t_max tt o
      = (((List.range n_loop_unroll_tail).map fun (ttt : Nat) => tt + (ttt : Int)).filter
          fun t => decide (t < t_max)).foldl
          (fun (o : Nat → Float4 α) (t : Int) (lane : Nat) =>
            scalar4_scale_acc (o lane) (load_v (V t) lane) (smem t)) o := by
  unfold accTailBody
  rw [foldl_filter', List.foldl_map]
  apply List.foldl_ext
  intro o ttt _
  by_cases h : tt + (ttt : Int) < t_max <;> simp [h]

theorem accWavefront_eq (V : Int → Int → α) (W w : Nat) (t_max : Int) (smem : Int → α) :
    accWavefront V W w t_max smem
      = (groupPositions W w t_max).foldl
          (fun (o : Nat → Float4 α) (t : Int) (lane : Nat) =>
            scalar4_scale_acc (o lane) (load_v (V t) lane) (smem t))
          (fun _ => Float4.zero) := by
  unfold accWavefront groupPositions mainPositions tailPositions
  rw [List.foldl_append, foldl_flatMap', foldl_flatMap']
  simp only [accMainBody_eq, accTailBody_eq]

theorem foldl_scale_acc_get (V : Int → Int → α) (smem : Int → α) (l : List Int) (lane i : Nat)
    (hi : i < 4) :
    ∀ o : Nat → Float4 α,
      ((l.foldl (fun (o : Nat → Float4 α) (t : Int) (lane : Nat) =>
            scalar4_scale_acc (o lane) (load_v (V t) lane) (smem t)) o)
          lane).get i
        = (o lane).get i + (l.map fun t => V t (4 * (lane : Int) + (i : Int)) * smem t).sum := by
  induction l with
  | nil => intro o; simp
  | cons a l ih =>
    intro o
    simp only [List.foldl_cons, List.map_cons, List.sum_cons]
    rw [ih, get_scalar4_scale_acc _ _ _ _ _ hi, add_assoc]

/-- The accumulator of a lane is the weighted sum of its slice of the value rows over
the positions its group visits. -/
theorem accWavefront_get (V : Int → Int → α) (W w : Nat) (t_max : Int) (smem : Int → α)
    (lane i : Nat) (hi : i < 4) :
    (accWavefront V W w t_max smem lane).get i
      = ((groupPositions W w t_max).map
          fun t => V t (4 * (lane : Int) + (i : Int)) * smem t).sum := by
  rw [accWavefront_eq, foldl_scale_acc_get _ _ _ _ _ hi, Float4.get_zero, zero_add]

omit [LinearOrderedField α] in
theorem store_v_eq_foldl (g : Int → α) (sm : Int → α) (vo : Int) (v : Float4 α)
    (hx : v.x = g (4 * vo)) (hy : v.y = g (4 * vo + 1)) (hz : v.z = g (4 * vo + 2))
    (hw : v.w = g (4 * vo + 3)) :
    store_v sm vo v
      = [4 * vo, 4 * vo + 1, 4 * vo + 2, 4 * vo + 3].foldl
          (fun sm t => Function.update sm t (g t)) sm := by
  simp [store_v, hx, hy, hz, hw]

omit [LinearOrderedField α] in
/-- The four floats of a vector slot of a lane hold its accumulator after line 337. -/
theorem storeAccs_apply (o : Nat → Nat → Float4 α) (W : Nat) (smem : Int → α)
    (w lane i : Nat) (hw : w < W) (hl : lane < 64) (hi : i < 4) :
    storeAccs o W smem (4 * ((w : Int) * 64 + (lane : Int)) + (i : Int)) = (o w lane).get i := by
  have key : storeAccs o W smem
      = ((List.range W).flatMap fun w => (List.range kThreadsPerWavefront).flatMap
          fun lane => [4 * thread_linear_idx w lane, 4 * thread_linear_idx w lane + 1,
            4 * thread_linear_idx w lane + 2, 4 * thread_linear_idx w lane + 3]).foldl
          (fun sm t => Function.update sm t
            ((o (t / 256).toNat (t / 4 % 64).toNat).get (t % 4).toNat)) smem := by
    unfold storeAccs
    rw [foldl_flatMap']
    apply List.foldl_ext
    intro sm w _
    rw [foldl_flatMap']
    apply List.foldl_ext
    intro sm lane hlane
    have hl64 : lane < 64 := by simpa [kThreadsPerWavefront] using hlane
    apply store_v_eq_foldl
    all_goals
      simp only [thread_linear_idx, kThreadsPerWavefront, Nat.cast_ofNat]
    · have e1 : (4 * ((lane : Int) + (w : Int) * 64) / 256).toNat = w := by omega
      have e2 : (4 * ((lane : Int) + (w : Int) * 64) / 4 % 64).toNat = lane := by omega
      have e3 : (4 * ((lane : Int) + (w : Int) * 64) % 4).toNat = 0 := by omega
      rw [e1, e2, e3]; rfl
    · have e1 : ((4 * ((lane : Int) + (w : Int) * 64) + 1) / 256).toNat = w := by omega
      have e2 : ((4 * ((lane : Int) + (w : Int) * 64) + 1) / 4 % 64).toNat = lane := by omega
      have e3 : ((4 * ((lane : Int) + (w : Int) * 64) + 1) % 4).toNat = 1 := by omega
      rw [e1, e2, e3]; rfl
    · have e1 : ((4 * ((lane : Int) + (w : Int) * 64) + 2) / 256).toNat = w := by omega
      have e2 : ((4 * ((lane : Int) + (w : Int) * 64) + 2) / 4 % 64).toNat = lane := by omega
      have e3 : ((4 * ((lane : Int) + (w : Int) * 64) + 2) % 4).toNat = 2 := by omega
      rw [e1, e2, e3]; rfl
    · have e1 : ((4 * ((lane : Int) + (w : Int) * 64) + 3) / 256).toNat = w := by omega
      have e2 : ((4 * ((lane : Int) + (w : Int) * 64) + 3) / 4 % 64).toNat = lane := by omega
      have e3 : ((4 * ((lane : Int) + (w : Int) * 64) + 3) % 4).toNat = 3 := by omega
      rw [e1, e2, e3]; rfl
  rw [key, foldl_update_apply, if_pos]
  · have e1 : ((4 * ((w : Int) * 64 + (lane : Int)) + (i : Int)) / 256).toNat = w := by omega
    have e2 : ((4 * ((w : Int) * 64 + (lane : Int)) + (i : Int)) / 4 % 64).toNat = lane := by
      omega
    have e3 : ((4 * ((w : Int) * 64 + (lane : Int)) + (i : Int)) % 4).toNat = i := by omega
    rw [e1, e2, e3]
  · simp only [List.mem_flatMap, List.mem_range, kThreadsPerWavefront, thread_linear_idx,
      Nat.cast_ofNat]
    refine ⟨w, hw, lane, hl, ?_⟩
    simp only [List.mem_cons, List.mem_singleton, List.not_mem_nil, or_false]
    interval_cases i
    · left; push_cast; ring
    · right; left; push_cast; ring
    · right; right; left; push_cast; ring
    · right; right; right; push_cast; ring

theorem sumAccs_get (W : Nat) (smem : Int → α) (lane i : Nat) (hi : i < 4) :
    (sumAccs W smem lane).get i
      = ∑ w in Finset.range W, smem (4 * ((w : Int) * 64 + (lane : Int)) + (i : Int)) := by
  unfold sumAccs
  induction W with
  | zero => simp [Float4.get_zero]
  | succ n ih =>
    rw [List.range_succ, List.foldl_append, Finset.sum_range_succ]
    simp only [List.foldl_cons, List.foldl_nil]
    rw [Float4.get_add, get_load_v _ _ _ hi, ih]
    simp only [kThreadsPerWavefront, Nat.cast_ofNat]

/-- The vector written by lane `lane` of group 0 is the sum of the accumulators of
lane `lane` of all groups. -/
theorem sumAccs_storeAccs (o : Nat → Nat → Float4 α) (W : Nat) (smem : Int → α)
    (lane i : Nat) (hl : lane < 64) (hi : i < 4) :
    (sumAccs W (storeAccs o W smem) lane).get i = ∑ w in Finset.range W, (o w lane).get i := by
  rw [sumAccs_get _ _ _ _ hi]
  apply Finset.sum_congr rfl
  intro w hw
  exact storeAccs_apply o W smem w lane i (by simpa using hw) hl hi

end Accumulate

/-! ## The stages of a launch -/

section LaunchLemmas

variable {α : Type} [LinearOrderedField α]

theorem smemMaxStaged_low (L : Launch α) (b h : Nat) (p : Int) (hp : p < 8192) :
    L.smemMaxStaged b h p = (L.afterScore b h).2 p := by
  unfold Launch.smemMaxStaged
  rw [stageWrite_low _ _ _ _ hp]

theorem smemSumStaged_low (L : Launch α) (expf : α → α) (b h : Nat) (p : Int)
    (hp : p < 8192) : L.smemSumStaged expf b h p = (L.afterScore b h).2 p := by
  unfold Launch.smemSumStaged
  rw [stageWrite_low _ _ _ _ hp, smemMaxStaged_low _ _ _ _ hp]

/-- Every lane of every group of a block holds the same maximum after line 255. -/
theorem max_qk_acc_uniform (L : Launch α) (b h : Nat) (hW : 0 < L.wavefronts_per_block)
    (hW64 : L.wavefronts_per_block ≤ 64) (w lane : Nat) (hw : w < L.wavefronts_per_block)
    (hl : lane < 64) :
    L.max_qk_acc b h w lane = L.blockMaxVal b h := by
  unfold Launch.max_qk_acc Launch.blockMaxVal
  apply blockMax_eq _ _ _ hW hW64 w lane hw hl
  · intro l hl'
    exact scoreStage_max_uniform _ _ _ _ _ _ _ _ hw hl'
  · intro l hl'
    unfold Launch.smemMaxStaged
    exact stageWrite_slot _ _ _ _ hl'

/-- Every lane of every group of a block holds the same denominator after line 277. -/
theorem softmax_denominator_eq (L : Launch α) (expf : α → α) (b h : Nat)
    (hW : 0 < L.wavefronts_per_block) (hW64 : L.wavefronts_per_block ≤ 64)
    (ht : L.t_max b ≤ 8192) (w lane : Nat) (hl : lane < 64) :
    L.softmax_denominator expf b h w lane = L.denomVal expf b h := by
  unfold Launch.softmax_denominator Launch.smemSumStaged Launch.denomVal
  rw [denominator_eq expf _ _ _ _ hW64 (L.blockMaxVal b h)
    (fun w hw j hj => max_qk_acc_uniform L b h hW hW64 w j hw hj) w lane hl]
  congr 1
  apply List.map_congr_left
  intro t ht'
  rw [mem_threadPositions _ hW] at ht'
  rw [smemMaxStaged_low _ _ _ _ (by omega)]

/-- After the normalisation, slot `p` below the length holds the exponential of its
score minus the block maximum, times the reciprocal of the denominator. -/
theorem smemNormalized_apply (L : Launch α) (expf : α → α) (b h : Nat)
    (hW : 0 < L.wavefronts_per_block) (hW64 : L.wavefronts_per_block ≤ 64)
    (ht : L.t_max b ≤ 8192) (p : Int) (h0 : 0 ≤ p) (hp : p < L.t_max b) :
    L.smemNormalized expf b h p
      = expf ((L.afterScore b h).2 p - L.blockMaxVal b h) * (1 / L.denomVal expf b h) := by
  unfold Launch.smemNormalized
  rw [normalize_eq expf _ _ _ _ _ hW (L.blockMaxVal b h) (L.denomVal expf b h)
    (fun w hw j hj => max_qk_acc_uniform L b h hW hW64 w j hw hj)
    (fun w _ j hj => softmax_denominator_eq L expf b h hW hW64 ht w j hj),
    if_pos ((mem_threadPositions _ hW _ _).2 ⟨h0, hp⟩), smemSumStaged_low _ _ _ _ _ (by omega)]

/-- The vector that lane `lane` of group 0 writes: the weighted sum of its slice of the
value rows over the positions visited by the groups of the block. -/
theorem bf_r_get (L : Launch α) (expf : α → α) (b h lane i : Nat) (hl : lane < 64)
    (hi : i < 4) :
    (L.bf_r expf b h lane).get i
      = ((blockPositions L.wavefronts_per_block (L.t_max b)).map fun t =>
          L.Vrow b h t (4 * (lane : Int) + (i : Int)) * L.smemNormalized expf b h t).sum := by
  unfold Launch.bf_r Launch.smemAccs blockPositions
  rw [sumAccs_storeAccs _ _ _ _ _ hl hi, sum_map_flatMap_range]
  apply Finset.sum_congr rfl
  intro w _
  unfold Launch.o_acc
  rw [accWavefront_get _ _ _ _ _ _ _ hi]

end LaunchLemmas

/-! ## The global stores of a launch -/

section Stores

variable {α : Type} [LinearOrderedField α]

theorem mem_laneStores (L : Launch α) (expf : α → α) (b h w lane : Nat) (s : GlobalStore α) :
    s ∈ L.laneStores expf b h w lane ↔
      w = 0 ∧ ∃ i : Nat, i < 4 ∧ s =
        { blockIdx_x := b, blockIdx_y := h, wavefront_idx := w, lane_idx := lane,
          buf := Buffer.O, i0 := b, i1 := 0, i2 := h, i3 := 4 * (lane : Int) + i,
          val := (L.bf_r expf b h lane).get i } := by
  unfold Launch.laneStores
  by_cases hw : w = 0
  · simp only [hw, if_true, List.mem_map, List.mem_range, true_and]
    constructor
    · rintro ⟨i, hi, rfl⟩; exact ⟨i, hi, rfl⟩
    · rintro ⟨i, hi, rfl⟩; exact ⟨i, hi, rfl⟩
  · simp [hw]

theorem mem_stores (L : Launch α) (expf : α → α) (B H : Nat) (s : GlobalStore α) :
    s ∈ L.stores expf B H ↔
      ∃ b, b < B ∧ ∃ h, h < H ∧ ∃ w, w < L.wavefronts_per_block ∧ ∃ lane, lane < 64 ∧
        w = 0 ∧ ∃ i : Nat, i < 4 ∧ s =
          { blockIdx_x := b, blockIdx_y := h, wavefront_idx := w, lane_idx := lane,
            buf := Buffer.O, i0 := b, i1 := 0, i2 := h, i3 := 4 * (lane : Int) + i,
            val := (L.bf_r expf b h lane).get i } := by
  unfold Launch.stores Launch.blockStores
  simp only [List.mem_flatMap, List.mem_range, mem_laneStores, kThreadsPerWavefront]

omit [LinearOrderedField α] in
theorem foldl_applyStore_apply (G : Int → Int → Int → Int → α) (l : List (GlobalStore α))
    (hG : ∀ s ∈ l, s.val = G s.i0 s.i1 s.i2 s.i3) :
    ∀ (O : Int → Int → Int → Int → α) (a0 a1 a2 a3 : Int),
      (l.foldl applyStore O) a0 a1 a2 a3
        = if ∃ s ∈ l, s.buf = Buffer.O ∧ a0 = s.i0 ∧ a1 = s.i1 ∧ a2 = s.i2 ∧ a3 = s.i3
          then G a0 a1 a2 a3 else O a0 a1 a2 a3 := by
  induction l with
  | nil => intro O a0 a1 a2 a3; simp
  | cons s l ih =>
    intro O a0 a1 a2 a3
    have hs := hG s (List.mem_cons_self _ _)
    rw [List.foldl_cons, ih (fun s hs => hG s (List.mem_cons_of_mem _ hs))]
    by_cases h1 : ∃ s ∈ l, s.buf = Buffer.O ∧ a0 = s.i0 ∧ a1 = s.i1 ∧ a2 = s.i2 ∧ a3 = s.i3
    · have h2 : ∃ s2 ∈ s :: l,
          s2.buf = Buffer.O ∧ a0 = s2.i0 ∧ a1 = s2.i1 ∧ a2 = s2.i2 ∧ a3 = s2.i3 := by
        obtain ⟨s2, hs2, h⟩ := h1
        exact ⟨s2, List.mem_cons_of_mem _ hs2, h⟩
      rw [if_pos h1, if_pos h2]
    · rw [if_neg h1]
      by_cases h3 : s.buf = Buffer.O ∧ a0 = s.i0 ∧ a1 = s.i1 ∧ a2 = s.i2 ∧ a3 = s.i3
      · have h2 : ∃ s2 ∈ s :: l,
            s2.buf = Buffer.O ∧ a0 = s2.i0 ∧ a1 = s2.i1 ∧ a2 = s2.i2 ∧ a3 = s2.i3 :=
          ⟨s, List.mem_cons_self _ _, h3⟩
        rw [if_pos h2]
        unfold applyStore
        rw [if_pos h3, hs, h3.2.1, h3.2.2.1, h3.2.2.2.1, h3.2.2.2.2]
      · have h2 : ¬ ∃ s2 ∈ s :: l,
            s2.buf = Buffer.O ∧ a0 = s2.i0 ∧ a1 = s2.i1 ∧ a2 = s2.i2 ∧ a3 = s2.i3 := by
          rintro ⟨s2, hs2, h⟩
          rcases List.mem_cons.1 hs2 with e | e
          · subst e; exact h3 h
          · exact h1 ⟨s2, e, h⟩
        rw [if_neg h2]
        unfold applyStore
        rw [if_neg h3]

/-- The output element `O[b][0][h][d]` after the launch is component `d % 4` of the
vector written by lane `d / 4` of group 0 of block `(b, h)`. -/
theorem kernel_apply (expf : α → α) (L : Launch α) (B H : Nat)
    (O : Int → Int → Int → Int → α) (b h d : Nat) (hb : b < B) (hh : h < H) (hd : d < 256)
    (hW : 0 < L.wavefronts_per_block) :
    efficient_attention_forward_decoder_ck_kernel expf L B H O b 0 h d
      = (L.bf_r expf b h (d / 4)).get (d % 4) := by
  unfold efficient_attention_forward_decoder_ck_kernel
  rw [foldl_applyStore_apply
    (fun i0 _ i2 i3 => (L.bf_r expf i0.toNat i2.toNat (i3 / 4).toNat).get (i3 % 4).toNat)]
  · rw [if_pos]
    · have e1 : ((d : Int) / 4).toNat = d / 4 := by omega
      have e2 : ((d : Int) % 4).toNat = d % 4 := by omega
      simp only [Int.toNat_ofNat, e1, e2]
    · refine ⟨_, (mem_stores L expf B H _).2
        ⟨b, hb, h, hh, 0, hW, d / 4, by omega, rfl, d % 4, by omega, rfl⟩, rfl, rfl, rfl, rfl,
        ?_⟩
      show (d : Int) = 4 * ((d / 4 : Nat) : Int) + ((d % 4 : Nat) : Int)
      omega
  · intro s hs
    rw [mem_stores] at hs
    obtain ⟨b2, _, h2, _, w, _, lane, _, _, i, hi, rfl⟩ := hs
    have e1 : ((4 * (lane : Int) + (i : Int)) / 4).toNat = lane := by omega
    have e2 : ((4 * (lane : Int) + (i : Int)) % 4).toNat = i := by omega
    simp only [Int.toNat_ofNat, e1, e2]

end Stores

/-! ## Functional correctness with 16 groups -/

section Correctness

variable {α : Type} [LinearOrderedField α]

theorem sum_range_four (f : Int → α) (n : Nat) :
    ∑ d in Finset.range (4 * n), f (d : Int)
      = ∑ j in Finset.range n,
          (f (4 * (j : Int)) + f (4 * (j : Int) + 1) + f (4 * (j : Int) + 2)
            + f (4 * (j : Int) + 3)) := by
  induction n with
  | zero => simp
  | succ n ih =>
    have e : 4 * (n + 1) = 4 * n + 1 + 1 + 1 + 1 := by ring
    rw [e, Finset.sum_range_succ, Finset.sum_range_succ, Finset.sum_range_succ,
      Finset.sum_range_succ, ih, Finset.sum_range_succ]
    push_cast
    ring

/-- The score every lane holds is the scaled dot product of the query row and the key
row. -/
theorem qk_acc_eq_dot (L : Launch α) (b h : Nat) (t : Int) (lane : Nat) (hl : lane < 64) :
    qk_acc (L.q_thread b h) (L.Krow b h) L.qk_scale t lane
      = L.qk_scale * ∑ d in Finset.range 256, L.XQ.data b 0 h d * L.Krow b h t d := by
  rw [qk_acc_eq _ _ _ _ _ hl]
  have h4 : (256 : Nat) = 4 * 64 := by norm_num
  rw [h4, sum_range_four (fun d => L.XQ.data b 0 h d * L.Krow b h t d) 64, Finset.mul_sum]
  apply Finset.sum_congr rfl
  intro j _
  simp only [inner_product, Launch.q_thread, load_v]
  ring

theorem sum_map_perm_range (l : List Int) (n : Nat)
    (hp : l.Perm ((List.range n).map fun (i : Nat) => (i : Int))) (g : Int → α) :
    (l.map g).sum = ∑ i in Finset.range n, g (i : Int) := by
  rw [(hp.map g).sum_eq, List.map_map, sum_map_range]
  rfl

/-- With 16 groups and a length `n` up to `T_MAX`, the output element is the sum over
all positions below `n` of the value times the normalised exponential of the score. -/
theorem kernel_output_16 (expf : α → α) (L : Launch α) (B H : Nat)
    (O : Int → Int → Int → Int → α) (b h d n : Nat) (hb : b < B) (hh : h < H)
    (hd : d < 256) (hW : L.wavefronts_per_block = 16) (hn : L.t_max b = n)
    (hn8 : n ≤ 8192) :
    efficient_attention_forward_decoder_ck_kernel expf L B H O b 0 h d
      = ∑ t in Finset.range n, L.Vrow b h t d *
          (expf (referenceScore L b h t - L.blockMaxVal b h) *
            (1 / ∑ u in Finset.range n,
              expf (referenceScore L b h u - L.blockMaxVal b h))) := by
  have hW0 : 0 < L.wavefronts_per_block := by omega
  have hW64 : L.wavefronts_per_block ≤ 64 := by omega
  have ht : L.t_max b ≤ 8192 := by omega
  have hsc : ∀ t : Nat, t < n →
      (L.afterScore b h).2 (t : Int) = referenceScore L b h t := by
    intro t htn
    unfold Launch.afterScore
    rw [scoreStage_smem, hW, hn, if_pos ((mem_blockPositions_16 _ _ (by omega)).2
      ⟨by omega, by omega⟩), qk_acc_eq_dot _ _ _ _ _ (by decide)]
    rfl
  have hden : L.denomVal expf b h
      = ∑ u in Finset.range n, expf (referenceScore L b h u - L.blockMaxVal b h) := by
    unfold Launch.denomVal
    rw [hn, sum_map_perm_range _ n (threadPositions_perm _ hW0 n)]
    apply Finset.sum_congr rfl
    intro u hu
    rw [hsc u (by simpa using hu)]
  rw [kernel_apply expf L B H O b h d hb hh hd hW0,
    bf_r_get L expf b h (d / 4) (d % 4) (by omega) (by omega), hW, hn,
    sum_map_perm_range _ n (blockPositions_16_perm n)]
  apply Finset.sum_congr rfl
  intro t ht'
  have htn : t < n := by simpa using ht'
  rw [smemNormalized_apply L expf b h hW0 hW64 ht _ (by omega) (by omega), hsc t htn, hden]
  have e : 4 * ((d / 4 : Nat) : Int) + ((d % 4 : Nat) : Int) = (d : Int) := by omega
  rw [e]

end Correctness

/-! ## The host launcher and the reference attention -/

section Host

variable {α : Type} [LinearOrderedField α]

omit [LinearOrderedField α] in
/-- The launcher launches the kernel exactly when its six checks pass and the element
type of the query is one of the three of the switch. -/
theorem hostChecks_eq_none_iff (XQ cache_K cache_V : Tensor α) (seq_positions : IntTensor) :
    hostChecks XQ cache_K cache_V seq_positions = none ↔
      XQ.is_cuda = true ∧ cache_K.is_cuda = true ∧ cache_V.is_cuda = true ∧
      seq_positions.is_cuda = true ∧ cache_K.size 1 ≤ T_MAX ∧ cache_K.size 3 = D_H ∧
      (XQ.scalar_type = ScalarType.Half ∨ XQ.scalar_type = ScalarType.BFloat16 ∨
        XQ.scalar_type = ScalarType.Float) := by
  unfold hostChecks
  by_cases h1 : XQ.is_cuda = true <;> by_cases h2 : cache_K.is_cuda = true <;>
    by_cases h3 : cache_V.is_cuda = true <;> by_cases h4 : seq_positions.is_cuda = true <;>
    by_cases h5 : cache_K.size 1 ≤ T_MAX <;> by_cases h6 : cache_K.size 3 = D_H <;>
    simp [h1, h2, h3, h4, h5, h6]
  cases XQ.scalar_type <;> simp

theorem out_impl_ok (expf : α → α) (W : Nat) (XQ cache_K cache_V : Tensor α)
    (seq_positions : IntTensor) (qk_scale : α) (O : Tensor α) (smem : Nat → Nat → Int → α)
    (hchk : hostChecks XQ cache_K cache_V seq_positions = none) :
    efficient_attention_forward_decoder_ck_out_impl expf W XQ cache_K cache_V seq_positions
        qk_scale O smem
      = Except.ok { O with
          data := efficient_attention_forward_decoder_ck_kernel expf
            (launchOf W XQ cache_K cache_V seq_positions qk_scale smem)
            (XQ.size 0) (XQ.size 2) O.data } := by
  unfold efficient_attention_forward_decoder_ck_out_impl
  rw [hchk]

end Host

theorem softmax_shift (s : Nat → ℝ) (n : Nat) (M m : ℝ) (t : Nat) :
    Real.exp (s t - M) * (1 / ∑ u in Finset.range n, Real.exp (s u - M))
      = Real.exp (s t - m) / ∑ u in Finset.range n, Real.exp (s u - m) := by
  have hsplit : ∀ u, Real.exp (s u - M) = Real.exp (s u - m) * Real.exp (m - M) := by
    intro u
    rw [← Real.exp_add]
    congr 1
    ring
  simp only [hsplit]
  rw [← Finset.sum_mul, mul_one_div,
    mul_div_mul_right _ _ (ne_of_gt (Real.exp_pos (m - M)))]

/-- With 16 groups, exact real arithmetic and the real exponential, the output element
is the reference attention. -/
theorem kernel_eq_reference_16 (L : Launch ℝ) (B H : Nat)
    (O : Int → Int → Int → Int → ℝ) (b h d n : Nat) (hb : b < B) (hh : h < H)
    (hd : d < 256) (hW : L.wavefronts_per_block = 16) (hn : L.t_max b = n)
    (hn8 : n ≤ 8192) :
    efficient_attention_forward_decoder_ck_kernel Real.exp L B H O b 0 h d
      = referenceAttention Real.exp L b h n d := by
  rw [kernel_output_16 Real.exp L B H O b h d n hb hh hd hW hn hn8]
  unfold referenceAttention referenceWeight
  apply Finset.sum_congr rfl
  intro t _
  rw [softmax_shift (referenceScore L b h) n (L.blockMaxVal b h)
    (maxOver n (referenceScore L b h)) t, mul_comm]

/-! ## Normalised weights -/

section Normalised

variable {α : Type} [LinearOrderedField α]

theorem denomVal_eq_sum (L : Launch α) (expf : α → α) (b h n : Nat)
    (hW : 0 < L.wavefronts_per_block) (hn : L.t_max b = n) (hn8 : n ≤ 8192) :
    L.denomVal expf b h
      = ∑ t in Finset.range n, expf (L.smemMaxStaged b h t - L.blockMaxVal b h) := by
  unfold Launch.denomVal
  rw [hn, sum_map_perm_range _ n (threadPositions_perm _ hW n)]
  apply Finset.sum_congr rfl
  intro t ht
  have : t < n := by simpa using ht
  rw [smemMaxStaged_low _ _ _ _ (by omega)]

theorem denomVal_pos (L : Launch α) (expf : α → α) (hpos : ∀ x, 0 < expf x) (b h n : Nat)
    (hW : 0 < L.wavefronts_per_block) (hn : L.t_max b = n) (h1 : 1 ≤ n) (hn8 : n ≤ 8192) :
    0 < L.denomVal expf b h := by
  rw [denomVal_eq_sum L expf b h n hW hn hn8]
  apply Finset.sum_pos
  · intro t _; exact hpos _
  · exact ⟨0, by simp; omega⟩

theorem smemNormalized_eq (L : Launch α) (expf : α → α) (b h n : Nat)
    (hW : 0 < L.wavefronts_per_block) (hW64 : L.wavefronts_per_block ≤ 64)
    (hn : L.t_max b = n) (hn8 : n ≤ 8192) (t : Nat) (ht : t < n) :
    L.smemNormalized expf b h t
      = expf (L.smemMaxStaged b h t - L.blockMaxVal b h) * (1 / L.denomVal expf b h) := by
  rw [smemNormalized_apply L expf b h hW hW64 (by omega) _ (by omega) (by omega),
    smemMaxStaged_low _ _ _ _ (by omega)]

theorem smemNormalized_sum (L : Launch α) (expf : α → α) (hpos : ∀ x, 0 < expf x)
    (b h n : Nat) (hW : 0 < L.wavefronts_per_block) (hW64 : L.wavefronts_per_block ≤ 64)
    (hn : L.t_max b = n) (h1 : 1 ≤ n) (hn8 : n ≤ 8192) :
    ∑ t in Finset.range n, L.smemNormalized expf b h t = 1 := by
  have hD := denomVal_pos L expf hpos b h n hW hn h1 hn8
  have e : ∑ t in Finset.range n, L.smemNormalized expf b h t
      = ∑ t in Finset.range n,
          expf (L.smemMaxStaged b h t - L.blockMaxVal b h) * (1 / L.denomVal expf b h) := by
    apply Finset.sum_congr rfl
    intro t ht
    exact smemNormalized_eq L expf b h n hW hW64 hn hn8 t (by simpa using ht)
  rw [e, ← Finset.sum_mul, ← denomVal_eq_sum L expf b h n hW hn hn8, mul_one_div,
    div_self (ne_of_gt hD)]

end Normalised

/-! ## Order of the global stores -/

section StoreOrder

variable {α : Type} [LinearOrderedField α]

theorem stores_pairwise (L : Launch α) (expf : α → α) (B H : Nat) :
    (L.stores expf B H).Pairwise GlobalStore.before := by
  unfold Launch.stores
  rw [List.pairwise_flatMap]
  constructor
  · intro b _
    rw [List.pairwise_flatMap]
    constructor
    · intro h _
      unfold Launch.blockStores
      rw [List.pairwise_flatMap]
      constructor
      · intro w _
        rw [List.pairwise_flatMap]
        constructor
        · intro lane _
          unfold Launch.laneStores
          split
          · apply List.Pairwise.map _ _ (List.pairwise_lt_range 4)
            intro i j hij
            right
            refine ⟨rfl, Or.inr ⟨rfl, ?_⟩⟩
            show 4 * (lane : Int) + (i : Int) < 4 * (lane : Int) + (j : Int)
            omega
          · exact List.Pairwise.nil
        · apply (List.pairwise_lt_range _).imp
          intro l1 l2 hl s hs s2 hs2
          rw [mem_laneStores] at hs hs2
          obtain ⟨_, i, hi, rfl⟩ := hs
          obtain ⟨_, j, hj, rfl⟩ := hs2
          right
          refine ⟨rfl, Or.inr ⟨rfl, ?_⟩⟩
          show 4 * (l1 : Int) + (i : Int) < 4 * (l2 : Int) + (j : Int)
          omega
      · apply (List.pairwise_lt_range _).imp
        intro w1 w2 hw s hs s2 hs2
        simp only [List.mem_flatMap, mem_laneStores] at hs hs2
        obtain ⟨_, _, _, _⟩ := hs
        obtain ⟨_, _, h0, _⟩ := hs2
        omega
    · apply (List.pairwise_lt_range _).imp
      intro h1 h2 hh s hs s2 hs2
      unfold Launch.blockStores at hs hs2
      simp only [List.mem_flatMap, mem_laneStores] at hs hs2
      obtain ⟨_, _, _, _, _, i, hi, rfl⟩ := hs
      obtain ⟨_, _, _, _, _, j, hj, rfl⟩ := hs2
      right
      refine ⟨rfl, Or.inl ?_⟩
      show (h1 : Int) < (h2 : Int)
      omega
  · apply (List.pairwise_lt_range _).imp
    intro b1 b2 hb s hs s2 hs2
    unfold Launch.blockStores at hs hs2
    simp only [List.mem_flatMap, mem_laneStores] at hs hs2
    obtain ⟨_, _, _, _, _, _, _, i, hi, rfl⟩ := hs
    obtain ⟨_, _, _, _, _, _, _, j, hj, rfl⟩ := hs2
    left
    show (b1 : Int) < (b2 : Int)
    omega

omit [LinearOrderedField α] in
theorem before_target_ne (s s2 : GlobalStore α) (h : s.before s2) : s.target ≠ s2.target := by
  intro e
  unfold GlobalStore.target at e
  simp only [Prod.mk.injEq] at e
  unfold GlobalStore.before at h
  omega

/-- No two stores of a launch go to the same element. -/
theorem stores_target_nodup (L : Launch α) (expf : α → α) (B H : Nat) :
    ((L.stores expf B H).map GlobalStore.target).Nodup :=
  List.Pairwise.map _ (fun a b h => before_target_ne a b h) (stores_pairwise L expf B H)

end StoreOrder

/-! ## Output for any number of groups -/

section General

variable {α : Type} [LinearOrderedField α]

/-- For any number of groups, the output element is the weighted sum of the value rows
over the positions that the groups visit in the accumulation stage. -/
theorem kernel_output_general (expf : α → α) (L : Launch α) (B H : Nat)
    (O : Int → Int → Int → Int → α) (b h d : Nat) (hb : b < B) (hh : h < H) (hd : d < 256)
    (hW : 0 < L.wavefronts_per_block) :
    efficient_attention_forward_decoder_ck_kernel expf L B H O b 0 h d
      = ((blockPositions L.wavefronts_per_block (L.t_max b)).map fun t =>
          L.Vrow b h t d * L.smemNormalized expf b h t).sum := by
  rw [kernel_apply expf L B H O b h d hb hh hd hW,
    bf_r_get L expf b h (d / 4) (d % 4) (by omega) (by omega)]
  have e : 4 * ((d / 4 : Nat) : Int) + ((d % 4 : Nat) : Int) = (d : Int) := by omega
  rw [e]

theorem t_max_unroll_one : t_max_unroll 1 = 0 := by decide

theorem groupPositions_one (W w : Nat) (hW : 0 < W) :
    groupPositions W w 1 = if w = 0 then [0] else [] := by
  unfold groupPositions mainPositions tailPositions mainLoopIters tailLoopIters
  rw [t_max_unroll_one, forIters_eq_nil _ 0 _ (by simp only [n_loop_unroll]; omega)]
  by_cases hw : w = 0
  · subst hw
    have hstep : ¬ ((W : Int) * (n_loop_unroll_tail : Int) < 1) := by
      simp only [n_loop_unroll_tail, Nat.cast_ofNat]; omega
    simp [forIters, loopIters, n_loop_unroll_tail, List.range_succ, hstep]
  · rw [forIters_eq_nil _ 1 _ (by simp only [n_loop_unroll_tail, Nat.cast_ofNat]; omega)]
    simp [hw]

theorem positive_pos_of_smemNormalized (L : Launch α) (expf : α → α)
    (hpos : ∀ x, 0 < expf x) (b h n : Nat) (hW : 0 < L.wavefronts_per_block)
    (hW64 : L.wavefronts_per_block ≤ 64) (hn : L.t_max b = n) (h1 : 1 ≤ n) (hn8 : n ≤ 8192)
    (t : Nat) (ht : t < n) : 0 < L.smemNormalized expf b h t := by
  rw [smemNormalized_eq L expf b h n hW hW64 hn hn8 t ht]
  exact mul_pos (hpos _) (one_div_pos.2 (denomVal_pos L expf hpos b h n hW hn h1 hn8))

end General

/-! # The claims -/

/-! ## Claim C1 -/

/-- C1. For the registered operator (64 lanes per group, 16 groups per block), real
arithmetic and the real exponential: whenever the host checks pass (so the cache depth is
at most 8192 and `D = 256`) and `1 <= valid_length[b] <= cache depth`, the operator
returns an output tensor whose element `O[b,0,h,d]`, for every `d < 256`, is the reference
softmax attention `sum over t < valid_length[b] of w_t * V[b,t,h,d]` with
`s_t = qk_scale * sum_d Q[b,0,h,d] * K[b,t,h,d]` and
`w_t = exp(s_t - max_u s_u) / sum_u exp(s_u - max_u s_u)`. -/
theorem decoder_eq_reference_attention
    (XQ cache_K cache_V : Tensor ℝ) (seq_positions : IntTensor) (qk_scale : ℝ)
    (O_init : Int → Int → Int → Int → ℝ) (smem : Nat → Nat → Int → ℝ) (b h d n : Nat)
    (hchk : hostChecks XQ cache_K cache_V seq_positions = none)
    (hb : b < XQ.size 0) (hh : h < XQ.size 2) (hd : d < D_H)
    (hn : seq_positions.data b = n) (_h1 : 1 ≤ n) (hdepth : n ≤ cache_K.size 1) :
    ∃ O : Tensor ℝ,
      efficient_attention_forward_decoder_ck Real.exp XQ cache_K cache_V seq_positions
          qk_scale O_init smem = Except.ok O
      ∧ O.data b 0 h d
          = referenceAttention Real.exp
              (launchOf kWavefrontsPerBlock XQ cache_K cache_V seq_positions qk_scale smem)
              b h n d := by
  have hc := (hostChecks_eq_none_iff XQ cache_K cache_V seq_positions).1 hchk
  have hn8 : n ≤ 8192 := le_trans hdepth hc.2.2.2.2.1
  refine ⟨_, out_impl_ok Real.exp kWavefrontsPerBlock XQ cache_K cache_V seq_positions
    qk_scale _ smem hchk, ?_⟩
  exact kernel_eq_reference_16 _ _ _ _ b h d n hb hh hd rfl
    (by show seq_positions.data b + 0 = n; rw [hn, add_zero]) hn8

/-- Witness for `decoder_eq_reference_attention`: one batch, one head, one cached
position. -/
theorem decoder_eq_reference_attention_witness :
    ∃ O : Tensor ℝ,
      efficient_attention_forward_decoder_ck Real.exp
          (constTensor ScalarType.Float [1, 1, 1, 256] 1)
          (constTensor ScalarType.Float [1, 1, 1, 256] 1)
          (constTensor ScalarType.Float [1, 1, 1, 256] 2)
          (constLengths 1) 1 (fun _ _ _ _ => 0) (fun _ _ _ => 0) = Except.ok O
      ∧ O.data ((0 : Nat) : Int) 0 ((0 : Nat) : Int) ((0 : Nat) : Int)
          = referenceAttention Real.exp
              (launchOf kWavefrontsPerBlock (constTensor ScalarType.Float [1, 1, 1, 256] 1)
                (constTensor ScalarType.Float [1, 1, 1, 256] 1)
                (constTensor ScalarType.Float [1, 1, 1, 256] 2)
                (constLengths 1) 1 (fun _ _ _ => 0)) 0 0 1 0 :=
  decoder_eq_reference_attention _ _ _ _ _ _ _ 0 0 0 1 (by decide) (by decide) (by decide)
    (by decide) rfl (by decide) (by decide)

/-! ## Claim C3 -/

/-- C3. For every launch with `1 <= wavefronts_per_block <= 64`, exact arithmetic and an
everywhere positive `expf` (such as the real exponential), and every block whose
valid length `n` satisfies `1 <= n <= T_MAX`: the denominator that every lane holds is the
sum over all `t < n` of `expf (smem[t] - max_qk_acc)` and is not zero, and after the
normalisation the working buffer holds at the positions `t < n` non-negative values
whose sum is exactly 1. -/
theorem normalized_weights_sum_to_one {α : Type} [LinearOrderedField α] (expf : α → α)
    (hpos : ∀ x, 0 < expf x) (L : Launch α) (b h n : Nat)
    (hW : 1 ≤ L.wavefronts_per_block) (hW64 : L.wavefronts_per_block ≤ 64)
    (hn : L.t_max b = n) (h1 : 1 ≤ n) (hn8 : n ≤ T_MAX) :
    (∀ w lane, w < L.wavefronts_per_block → lane < 64 →
        L.softmax_denominator expf b h w lane
          = ∑ t in Finset.range n, expf (L.smemMaxStaged b h t - L.max_qk_acc b h w lane)
        ∧ L.softmax_denominator expf b h w lane ≠ 0)
    ∧ (∀ t : Nat, t < n → 0 ≤ L.smemNormalized expf b h t)
    ∧ ∑ t in Finset.range n, L.smemNormalized expf b h t = 1 := by
  have hn8' : n ≤ 8192 := hn8
  refine ⟨?_, ?_, smemNormalized_sum L expf hpos b h n hW hW64 hn h1 hn8'⟩
  · intro w lane hw hl
    rw [softmax_denominator_eq L expf b h hW hW64 (by omega) w lane hl,
      max_qk_acc_uniform L b h hW hW64 w lane hw hl]
    exact ⟨denomVal_eq_sum L expf b h n hW hn hn8',
      ne_of_gt (denomVal_pos L expf hpos b h n hW hn h1 hn8')⟩
  · intro t ht
    exact le_of_lt (positive_pos_of_smemNormalized L expf hpos b h n hW hW64 hn h1 hn8' t ht)

/-- Witness for `normalized_weights_sum_to_one`: the real exponential, 16 groups and
three cached positions. -/
theorem normalized_weights_sum_to_one_witness :
    ∑ t in Finset.range 3,
      (launchOf 16 (constTensor ScalarType.Float [1, 1, 1, 256] (1 : ℝ))
        (constTensor ScalarType.Float [1, 3, 1, 256] 1)
        (constTensor ScalarType.Float [1, 3, 1, 256] 2)
        (constLengths 3) 1 (fun _ _ _ => 0)).smemNormalized Real.exp 0 0 t = 1 :=
  (normalized_weights_sum_to_one Real.exp Real.exp_pos
    (launchOf 16 (constTensor ScalarType.Float [1, 1, 1, 256] (1 : ℝ))
      (constTensor ScalarType.Float [1, 3, 1, 256] 1)
      (constTensor ScalarType.Float [1, 3, 1, 256] 2)
      (constLengths 3) 1 (fun _ _ _ => 0)) 0 0 3 (by decide) (by decide) rfl (by decide)
    (by decide)).2.2

/-! ## Claim C5 -/

/-- C5. For every launch with `1 <= wavefronts_per_block <= 64`, exact arithmetic and an
everywhere positive `expf`, and every block `(b, h)` with valid length 1: the single
normalised weight is exactly 1 and every output element `O[b,0,h,d]`, `d < 256`, is
the element `d` of the first cached value row, whatever the query, the keys and
`qk_scale` are. -/
theorem single_position_output {α : Type} [LinearOrderedField α] (expf : α → α)
    (hpos : ∀ x, 0 < expf x) (L : Launch α) (B H : Nat) (O : Int → Int → Int → Int → α)
    (b h d : Nat) (hb : b < B) (hh : h < H) (hd : d < D_H)
    (hW : 1 ≤ L.wavefronts_per_block) (hW64 : L.wavefronts_per_block ≤ 64)
    (hn : L.t_max b = 1) :
    L.smemNormalized expf b h 0 = 1
    ∧ efficient_attention_forward_decoder_ck_kernel expf L B H O b 0 h d
        = L.Vrow b h 0 d := by
  have hn' : L.t_max b = ((1 : Nat) : Int) := by rw [hn]; rfl
  have hw1 : L.smemNormalized expf b h 0 = 1 := by
    have := smemNormalized_sum L expf hpos b h 1 hW hW64 hn' (le_refl 1) (by decide)
    simpa using this
  refine ⟨hw1, ?_⟩
  rw [kernel_output_general expf L B H O b h d hb hh hd hW, hn]
  unfold blockPositions
  rw [sum_map_flatMap_range, Finset.sum_eq_single 0]
  · rw [groupPositions_one _ _ hW]
    simp [hw1]
  · intro w _ hw0
    rw [groupPositions_one _ _ hW, if_neg hw0]
    simp
  · intro h0
    exact absurd (Finset.mem_range.2 hW) h0

/-- Witness for `single_position_output`: the real exponential, two groups, every value
equal to 2. -/
theorem single_position_output_witness :
    efficient_attention_forward_decoder_ck_kernel Real.exp
      (launchOf 2 (constTensor ScalarType.Float [1, 1, 1, 256] (1 : ℝ))
        (constTensor ScalarType.Float [1, 1, 1, 256] 1)
        (constTensor ScalarType.Float [1, 1, 1, 256] 2)
        (constLengths 1) 1 (fun _ _ _ => 0)) 1 1 (fun _ _ _ _ => 0)
      ((0 : Nat) : Int) 0 ((0 : Nat) : Int) ((7 : Nat) : Int) = 2 :=
  (single_position_output Real.exp Real.exp_pos
    (launchOf 2 (constTensor ScalarType.Float [1, 1, 1, 256] (1 : ℝ))
      (constTensor ScalarType.Float [1, 1, 1, 256] 1)
      (constTensor ScalarType.Float [1, 1, 1, 256] 2)
      (constLengths 1) 1 (fun _ _ _ => 0)) 1 1 (fun _ _ _ _ => 0) 0 0 7 (by decide)
    (by decide) (by decide) (by decide) (by decide) rfl).2

/-! ## Claim C2 -/

theorem blockPositions_1_256 :
    blockPositions 1 256 = (List.range 16).map fun (i : Nat) => (i : Int) := by
  decide

/-- With 16 groups, 256 cached positions and all values 1, the output element is 1. -/
theorem ones_output_16 (L : Launch ℝ) (O : Int → Int → Int → Int → ℝ)
    (hW : L.wavefronts_per_block = 16) (ht : L.t_max 0 = 256)
    (hV : ∀ t d, L.Vrow 0 0 t d = 1) :
    efficient_attention_forward_decoder_ck_kernel Real.exp L 1 1 O 0 0 0 0 = 1 := by
  have ht' : L.t_max 0 = ((256 : Nat) : Int) := by rw [ht]; rfl
  have hk := kernel_output_general Real.exp L 1 1 O 0 0 0 (by decide) (by decide)
    (by decide) (by omega)
  have hs := smemNormalized_sum L Real.exp Real.exp_pos 0 0 256 (by omega) (by omega) ht'
    (by decide) (by decide)
  rw [hW, ht', sum_map_perm_range _ 256 (blockPositions_16_perm 256)] at hk
  simp only [hV, one_mul] at hk
  show efficient_attention_forward_decoder_ck_kernel Real.exp L 1 1 O
      ((0 : Nat) : Int) 0 ((0 : Nat) : Int) ((0 : Nat) : Int) = 1
  rw [hk]
  exact hs

/-- With one group, 256 cached positions and all values 1, the output element is the
sum of the weights of the positions `0, ..., 15` only, which is below 1. -/
theorem ones_output_1 (L : Launch ℝ) (O : Int → Int → Int → Int → ℝ)
    (hW : L.wavefronts_per_block = 1) (ht : L.t_max 0 = 256)
    (hV : ∀ t d, L.Vrow 0 0 t d = 1) :
    efficient_attention_forward_decoder_ck_kernel Real.exp L 1 1 O 0 0 0 0 < 1 := by
  have ht' : L.t_max 0 = ((256 : Nat) : Int) := by rw [ht]; rfl
  have hk := kernel_output_general Real.exp L 1 1 O 0 0 0 (by decide) (by decide)
    (by decide) (by omega)
  have hs := smemNormalized_sum L Real.exp Real.exp_pos 0 0 256 (by omega) (by omega) ht'
    (by decide) (by decide)
  have hp := fun t ht => positive_pos_of_smemNormalized L Real.exp Real.exp_pos 0 0 256
    (by omega) (by omega) ht' (by decide) (by decide) t ht
  rw [hW, ht, blockPositions_1_256, List.map_map, sum_map_range] at hk
  simp only [hV, one_mul, Function.comp] at hk
  show efficient_attention_forward_decoder_ck_kernel Real.exp L 1 1 O
      ((0 : Nat) : Int) 0 ((0 : Nat) : Int) ((0 : Nat) : Int) < 1
  rw [hk, ← hs]
  have hsub : Finset.range 16 ⊆ Finset.range 256 := by
    intro x hx
    simp only [Finset.mem_range] at hx ⊢
    omega
  exact Finset.sum_lt_sum_of_subset (i := 16) hsub (by simp) (by simp)
    (by exact_mod_cast hp 16 (by decide))
    (fun j hj _ => le_of_lt (hp j (by simpa using hj)))

/-- C2 (the code departs from the claim). With 256 cached positions, one batch, one
head, every cached value equal to 1, and any query, keys, scale and initial contents
of the working buffers: `efficient_attention_forward_decoder_ck_impl<64, 16>` returns
`O[0,0,0,0] = 1`, the attention output, while
`efficient_attention_forward_decoder_ck_impl<64, 1>` returns `O[0,0,0,0] < 1`: its main
loops advance by `kWavefrontsPerBlock * n_loop_unroll = 256` positions and visit only
the positions `0, ..., 15`. -/
theorem impl_groups_1_and_16_disagree (q k : Int → Int → Int → Int → ℝ) (qk_scale : ℝ)
    (O_init : Int → Int → Int → Int → ℝ) (smem1 smem16 : Nat → Nat → Int → ℝ) :
    ∃ O1 O16 : Tensor ℝ,
      efficient_attention_forward_decoder_ck_impl Real.exp 1
          (deviceTensor ScalarType.Float [1, 1, 1, 256] q)
          (deviceTensor ScalarType.Float [1, 256, 1, 256] k)
          (constTensor ScalarType.Float [1, 256, 1, 256] 1) (constLengths 256) qk_scale
          O_init smem1 = Except.ok O1
      ∧ efficient_attention_forward_decoder_ck_impl Real.exp 16
          (deviceTensor ScalarType.Float [1, 1, 1, 256] q)
          (deviceTensor ScalarType.Float [1, 256, 1, 256] k)
          (constTensor ScalarType.Float [1, 256, 1, 256] 1) (constLengths 256) qk_scale
          O_init smem16 = Except.ok O16
      ∧ O16.data 0 0 0 0 = 1
      ∧ O1.data 0 0 0 0 < 1 :=
  by
  have h1 : (launchOf 1 (deviceTensor ScalarType.Float [1, 1, 1, 256] q)
      (deviceTensor ScalarType.Float [1, 256, 1, 256] k)
      (constTensor ScalarType.Float [1, 256, 1, 256] (1 : ℝ)) (constLengths 256) qk_scale
      smem1).t_max 0 = 256 := by
    simp [Launch.t_max, launchOf, constLengths]
  have h16 : (launchOf 16 (deviceTensor ScalarType.Float [1, 1, 1, 256] q)
      (deviceTensor ScalarType.Float [1, 256, 1, 256] k)
      (constTensor ScalarType.Float [1, 256, 1, 256] (1 : ℝ)) (constLengths 256) qk_scale
      smem16).t_max 0 = 256 := by
    simp [Launch.t_max, launchOf, constLengths]
  have hc : hostChecks (deviceTensor ScalarType.Float [1, 1, 1, 256] q)
      (deviceTensor ScalarType.Float [1, 256, 1, 256] k)
      (constTensor ScalarType.Float [1, 256, 1, 256] (1 : ℝ)) (constLengths 256) = none :=
    (hostChecks_eq_none_iff _ _ _ _).2
      ⟨rfl, rfl, rfl, rfl, by show (256 : Nat) ≤ 8192; decide, rfl, Or.inr (Or.inr rfl)⟩
  have e1 := out_impl_ok Real.exp 1 _ _ _ _ qk_scale
    { deviceTensor ScalarType.Float [1, 1, 1, 256] q with data := O_init } smem1 hc
  have e16 := out_impl_ok Real.exp 16 _ _ _ _ qk_scale
    { deviceTensor ScalarType.Float [1, 1, 1, 256] q with data := O_init } smem16 hc
  have o16 := ones_output_16 _ O_init rfl h16 (fun _ _ => rfl)
  have o1 := ones_output_1 (launchOf 1 (deviceTensor ScalarType.Float [1, 1, 1, 256] q)
      (deviceTensor ScalarType.Float [1, 256, 1, 256] k)
      (constTensor ScalarType.Float [1, 256, 1, 256] (1 : ℝ)) (constLengths 256) qk_scale
      smem1) O_init rfl h1 (fun _ _ => rfl)
  have e : (deviceTensor ScalarType.Float [1, 1, 1, 256] q).size 0 = 1 := rfl
  have e2 : (deviceTensor ScalarType.Float [1, 1, 1, 256] q).size 2 = 1 := rfl
  refine ⟨_, _, e1, e16, ?_, ?_⟩
  · simp only [e, e2]
    exact o16
  · simp only [e, e2]
    exact o1

/-! ## Claim C4 -/

/-- C4. Multiquery mode: for every launch whose key cache has head extent 1, the output
of the kernel over a grid of `B x H` blocks equals, element by element, the output of
the kernel run on the caches of head extent `H` in which the rows of the single head
are replicated for every head. -/
theorem multiquery_eq_replicated {α : Type} [LinearOrderedField α] (expf : α → α)
    (L : Launch α) (B H : Nat) (O : Int → Int → Int → Int → α)
    (hmq : L.cache_K.size 2 = 1) :
    efficient_attention_forward_decoder_ck_kernel expf L B H O
      = efficient_attention_forward_decoder_ck_kernel expf
          (L.replicateHeads H) B H O := by
  have hm : L.multiquery = true := by
    unfold Launch.multiquery
    rw [hmq]
    rfl
  have hK : ∀ b h, (L.replicateHeads H).Krow b h = L.Krow b h := by
    intro b h
    funext t d
    simp only [Launch.Krow, hm, if_true, Launch.replicateHeads, Tensor.replicateHeads]
  have hV : ∀ b h, (L.replicateHeads H).Vrow b h = L.Vrow b h := by
    intro b h
    funext t d
    simp only [Launch.Vrow, hm, if_true, Launch.replicateHeads, Tensor.replicateHeads]
  have hbf : ∀ b h, (L.replicateHeads H).bf_r expf b h = L.bf_r expf b h := by
    intro b h
    unfold Launch.bf_r Launch.smemAccs Launch.o_acc Launch.smemNormalized
      Launch.softmax_denominator Launch.smemSumStaged Launch.max_qk_acc
      Launch.smemMaxStaged Launch.afterScore
    rw [hK, hV]
    rfl
  unfold efficient_attention_forward_decoder_ck_kernel Launch.stores Launch.blockStores
    Launch.laneStores
  simp only [hbf]
  rfl

/-- Witness for `multiquery_eq_replicated`: a key cache of head extent 1 read by 4
heads. -/
theorem multiquery_eq_replicated_witness :
    efficient_attention_forward_decoder_ck_kernel Real.exp
      (launchOf 16 (constTensor ScalarType.Float [1, 1, 4, 256] (1 : ℝ))
        (constTensor ScalarType.Float [1, 8, 1, 256] 1)
        (constTensor ScalarType.Float [1, 8, 1, 256] 2)
        (constLengths 5) 1 (fun _ _ _ => 0)) 1 4 (fun _ _ _ _ => 0)
      = efficient_attention_forward_decoder_ck_kernel Real.exp
          ((launchOf 16 (constTensor ScalarType.Float [1, 1, 4, 256] (1 : ℝ))
            (constTensor ScalarType.Float [1, 8, 1, 256] 1)
            (constTensor ScalarType.Float [1, 8, 1, 256] 2)
            (constLengths 5) 1 (fun _ _ _ => 0)).replicateHeads 4)
          1 4 (fun _ _ _ _ => 0) :=
  multiquery_eq_replicated Real.exp
    (launchOf 16 (constTensor ScalarType.Float [1, 1, 4, 256] (1 : ℝ))
      (constTensor ScalarType.Float [1, 8, 1, 256] 1)
      (constTensor ScalarType.Float [1, 8, 1, 256] 2)
      (constLengths 5) 1 (fun _ _ _ => 0)) 1 4 (fun _ _ _ _ => 0) (by decide)

/-! ## Claim C7 -/

/-- C7 (the code departs from the claim). A call whose query and value cache have
per-head dimension 128, with a key cache of dimension 256 and depth 16, all buffers on
the device and of type float, passes every check of
`efficient_attention_forward_decoder_ck_out_impl`: the launcher does not reject it and
launches the kernel. Only the dimension of the key cache is checked. -/
theorem launch_with_query_dim_128 :
    (constTensor ScalarType.Float [1, 1, 1, 128] (0 : ℚ)).size 3 ≠ D_H
    ∧ (constTensor ScalarType.Float [1, 16, 1, 128] (0 : ℚ)).size 3 ≠ D_H
    ∧ hostChecks (constTensor ScalarType.Float [1, 1, 1, 128] (0 : ℚ))
        (constTensor ScalarType.Float [1, 16, 1, 256] 0)
        (constTensor ScalarType.Float [1, 16, 1, 128] 0) (constLengths 1) = none
    ∧ ∃ O : Tensor ℚ,
        efficient_attention_forward_decoder_ck_out_impl (fun _ => 1) 16
          (constTensor ScalarType.Float [1, 1, 1, 128] (0 : ℚ))
          (constTensor ScalarType.Float [1, 16, 1, 256] 0)
          (constTensor ScalarType.Float [1, 16, 1, 128] 0) (constLengths 1) 1
          (constTensor ScalarType.Float [1, 1, 1, 128] 0) (fun _ _ _ => 0) = Except.ok O :=
  ⟨by decide, by decide, by decide,
    ⟨_, out_impl_ok (fun _ => 1) 16 _ _ _ _ 1 _ _ (by decide)⟩⟩

/-! ## Claim C10 -/

/-- C10 (the claim fails). With 16 groups and valid length `T_MAX = 8192`, no group
makes a pass of the tail loop. -/
theorem tail_loop_not_run_at_T_MAX :
    ¬ ∃ w, w < kWavefrontsPerBlock ∧ tailLoopIters kWavefrontsPerBlock w T_MAX ≠ [] := by
  decide

/-- C10, as amended. With 16 groups and valid length `T_MAX = 8192`, in the score stage
and in the accumulation stage (which share their loop headers) the main unrolled loop
of every group makes 32 passes, so at least one, and the tail loop makes none: the
positions the group visits are those of its main loop. -/
theorem full_length_runs_main_loop_only (w : Nat) (hw : w < kWavefrontsPerBlock) :
    (mainLoopIters w T_MAX).length = 32
    ∧ tailLoopIters kWavefrontsPerBlock w T_MAX = []
    ∧ groupPositions kWavefrontsPerBlock w T_MAX = mainPositions w T_MAX := by
  have h : ∀ w, w < kWavefrontsPerBlock →
      (mainLoopIters w T_MAX).length = 32
        ∧ tailLoopIters kWavefrontsPerBlock w T_MAX = [] := by
    decide
  refine ⟨(h w hw).1, (h w hw).2, ?_⟩
  unfold groupPositions tailPositions
  rw [(h w hw).2]
  simp

/-- Witness for `full_length_runs_main_loop_only`: group 3. -/
theorem full_length_runs_main_loop_only_witness :
    (mainLoopIters 3 T_MAX).length = 32
    ∧ tailLoopIters kWavefrontsPerBlock 3 T_MAX = []
    ∧ groupPositions kWavefrontsPerBlock 3 T_MAX = mainPositions 3 T_MAX :=
  full_length_runs_main_loop_only 3 (by decide)

/-! ## Claim C8 -/

theorem filter_length_one_of_nodup {σ τ : Type} [DecidableEq τ] (f : σ → τ) (a : τ) :
    ∀ l : List σ, (l.map f).Nodup → a ∈ l.map f →
      (l.filter fun s => decide (f s = a)).length = 1 := by
  intro l
  induction l with
  | nil => intro _ h; simp at h
  | cons x l ih =>
    intro hnd hmem
    rw [List.map_cons, List.nodup_cons] at hnd
    rw [List.map_cons, List.mem_cons] at hmem
    by_cases hx : f x = a
    · have hnot : ∀ s ∈ l, ¬ f s = a := by
        intro s hs e
        exact hnd.1 (hx ▸ e ▸ List.mem_map_of_mem f hs)
      have hnil : (l.filter fun s => decide (f s = a)) = [] := by
        rw [List.filter_eq_nil_iff]
        intro s hs
        simpa using hnot s hs
      simp [List.filter_cons, hx, hnil]
    · have hm : a ∈ l.map f := by
        rcases hmem with h | h
        · exact absurd h.symm hx
        · exact h
      simp [List.filter_cons, hx, ih hnd.2 hm]

/-- C8. For a launch with at least one group over a grid of `B x H` blocks, every
output element `O[b,0,h,d]` with `b < B`, `h < H`, `d < 256` is the target of exactly
one global store; a store to it is made by lane `d / 4` of group 0 of block `(b, h)`;
and every global store of the kernel goes to the output tensor, none to the query,
the caches or the valid lengths. -/
theorem output_written_exactly_once {α : Type} [LinearOrderedField α] (expf : α → α)
    (L : Launch α) (B H b h d : Nat) (hb : b < B) (hh : h < H) (hd : d < D_H)
    (hW : 1 ≤ L.wavefronts_per_block) :
    ((L.stores expf B H).filter fun s =>
        decide (s.target = (Buffer.O, (b : Int), 0, (h : Int), (d : Int)))).length = 1
    ∧ (∀ s ∈ L.stores expf B H, s.target = (Buffer.O, (b : Int), 0, (h : Int), (d : Int)) →
        s.blockIdx_x = b ∧ s.blockIdx_y = h ∧ s.wavefront_idx = 0 ∧ s.lane_idx = d / 4)
    ∧ (∀ s ∈ L.stores expf B H, s.buf = Buffer.O) := by
  have hd' : d < 256 := hd
  refine ⟨?_, ?_, ?_⟩
  · apply filter_length_one_of_nodup GlobalStore.target _ _ (stores_target_nodup L expf B H)
    rw [List.mem_map]
    refine ⟨_, (mem_stores L expf B H _).2
      ⟨b, hb, h, hh, 0, hW, d / 4, by omega, rfl, d % 4, by omega, rfl⟩, ?_⟩
    simp only [GlobalStore.target, Prod.mk.injEq, true_and]
    omega
  · intro s hs ht
    rw [mem_stores] at hs
    obtain ⟨b2, _, h2, _, w, _, lane, _, hw0, i, hi, rfl⟩ := hs
    simp only [GlobalStore.target, Prod.mk.injEq, true_and] at ht
    show b2 = b ∧ h2 = h ∧ w = 0 ∧ lane = d / 4
    omega
  · intro s hs
    rw [mem_stores] at hs
    obtain ⟨b2, _, h2, _, w, _, lane, _, _, i, _, rfl⟩ := hs
    rfl

/-- Witness for `output_written_exactly_once`: element `O[1,0,2,77]` of a launch of
`2 x 4` blocks of 16 groups. -/
theorem output_written_exactly_once_witness :
    ((Launch.stores (launchOf 16 (constTensor ScalarType.Float [2, 1, 4, 256] (1 : ℚ))
        (constTensor ScalarType.Float [2, 8, 4, 256] 1)
        (constTensor ScalarType.Float [2, 8, 4, 256] 2)
        (constLengths 5) 1 (fun _ _ _ => 0)) (fun _ => 1) 2 4).filter fun s =>
      decide (s.target
        = (Buffer.O, ((1 : Nat) : Int), 0, ((2 : Nat) : Int), ((77 : Nat) : Int)))).length
      = 1 :=
  (output_written_exactly_once (fun _ => 1)
    (launchOf 16 (constTensor ScalarType.Float [2, 1, 4, 256] (1 : ℚ))
      (constTensor ScalarType.Float [2, 8, 4, 256] 1)
      (constTensor ScalarType.Float [2, 8, 4, 256] 2)
      (constLengths 5) 1 (fun _ _ _ => 0)) 2 4 1 2 77 (by decide) (by decide) (by decide)
    (by decide)).1

/-! ## Claim C9 -/

theorem mem_blockPositions_bounds (W : Nat) (hW : 0 < W) (t_max t : Int) (h0 : 0 ≤ t_max)
    (h : t ∈ blockPositions W t_max) : 0 ≤ t ∧ t < t_max := by
  unfold blockPositions groupPositions at h
  simp only [List.mem_flatMap, List.mem_range, List.mem_append] at h
  obtain ⟨w, _, h | h⟩ := h
  · rw [mem_mainPositions, t_max_unroll_eq _ h0] at h
    omega
  · rw [mem_tailPositions _ _ hW, t_max_unroll_eq _ h0] at h
    obtain ⟨h1, k, j, _, h2⟩ := h
    have hk : 0 ≤ (k : Int) * ((W : Int) * 2) := mul_nonneg (Int.ofNat_nonneg k) (by omega)
    omega

/-- C9. For every number of groups `W` with `1 <= W <= 64` the launcher requests
`smem_size = max(8192*4 + 4*W, 256*4*W)` bytes, and for a valid length `t_max` with
`0 <= t_max <= 8192` every float offset of the working buffer that the kernel accesses
is below `smem_size / 4`: the score slots `t < t_max`, the staging slots `8192 + w` with
`w < W`, and the four floats `4*(lane + 64*w) .. 4*(lane + 64*w) + 3` of the vector slot
of lane `lane < 64` of group `w < W`. -/
theorem smem_accesses_in_bounds (W : Nat) (t_max : Int) (hW : 1 ≤ W) (hW64 : W ≤ 64)
    (h0 : 0 ≤ t_max) (h8 : t_max ≤ T_MAX) :
    smem_size W = max (8192 * 4 + 4 * (W : Int)) (256 * 4 * (W : Int))
    ∧ (∀ idx ∈ smemAccesses W t_max, 0 ≤ idx ∧ idx < smem_size W / 4)
    ∧ (∀ t : Int, 0 ≤ t → t < t_max → t < smem_size W / 4)
    ∧ (∀ w : Nat, w < W → 8192 + (w : Int) < smem_size W / 4)
    ∧ (∀ lane w i : Nat, lane < 64 → w < W → i < 4 →
        4 * ((lane : Int) + 64 * (w : Int)) + (i : Int) < smem_size W / 4) := by
  have hs : smem_size W = max (8192 * 4 + 4 * (W : Int)) (256 * 4 * (W : Int)) := by
    simp only [smem_size, smem_softmax, smem_output, T_MAX, D_H, kThreadsPerWavefront,
      Nat.cast_ofNat, Nat.cast_mul]
    congr 1; ring
  have h8' : t_max ≤ 8192 := h8
  have hb1 : 8192 + (W : Int) ≤ smem_size W / 4 := by
    have : 8192 * 4 + 4 * (W : Int) ≤ smem_size W := by rw [hs]; exact le_max_left _ _
    omega
  have hb2 : 256 * (W : Int) ≤ smem_size W / 4 := by
    have : 256 * 4 * (W : Int) ≤ smem_size W := by rw [hs]; exact le_max_right _ _
    omega
  refine ⟨hs, ?_, ?_, ?_, ?_⟩
  · intro idx hidx
    unfold smemAccesses at hidx
    simp only [List.mem_append, List.mem_map, List.mem_flatMap, List.mem_range,
      mem_threadPositions _ hW, thread_linear_idx, kThreadsPerWavefront, T_MAX,
      Nat.cast_ofNat] at hidx
    rcases hidx with ((h | ⟨w, hw, rfl⟩) | h) | ⟨w, hw, lane, hl, i, hi, rfl⟩
    · have := mem_blockPositions_bounds W hW t_max idx h0 h
      omega
    · omega
    · omega
    · omega
  · intro t _ ht
    omega
  · intro w hw
    omega
  · intro lane w i hl hw hi
    omega

/-- Witness for `smem_accesses_in_bounds`: 16 groups and the full length 8192. -/
theorem smem_accesses_in_bounds_witness :
    smem_size 16 = max (8192 * 4 + 4 * ((16 : Nat) : Int)) (256 * 4 * ((16 : Nat) : Int))
    ∧ (∀ idx ∈ smemAccesses 16 8192, 0 ≤ idx ∧ idx < smem_size 16 / 4) :=
  ⟨(smem_accesses_in_bounds 16 8192 (by decide) (by decide) (by decide) (by decide)).1,
   (smem_accesses_in_bounds 16 8192 (by decide) (by decide) (by decide) (by decide)).2.1⟩

/-! # Further properties of the loops -/

/-! ## Tail loops for any number of groups -/

/-- A position of the remainder range is visited by the tail loop of group
`((t - t_max_unroll) / 2) mod wavefronts_per_block` and of no other group. -/
theorem mem_tailPositions_iff (W w : Nat) (hW : 0 < W) (hw : w < W) (t_max t : Int) :
    t ∈ tailPositions W w t_max ↔
      t_max_unroll t_max ≤ t ∧ t < t_max ∧
        (t - t_max_unroll t_max) / 2 % (W : Int) = (w : Int) := by
  rw [mem_tailPositions _ _ hW]
  constructor
  · rintro ⟨h1, k, j, hj, h2⟩
    have e : (k : Int) * ((W : Int) * 2) = 2 * ((k : Int) * (W : Int)) := by ring
    have hA : 0 ≤ (k : Int) * (W : Int) := mul_nonneg (Int.ofNat_nonneg k) (by omega)
    have hq : (t - t_max_unroll t_max) / 2 = (w : Int) + (k : Int) * (W : Int) := by omega
    refine ⟨by omega, h1, ?_⟩
    rw [hq, Int.add_mul_emod_self, Int.emod_eq_of_lt (by omega) (by omega)]
  · rintro ⟨h0, h1, h2⟩
    have hq0 : 0 ≤ (t - t_max_unroll t_max) / 2 := by omega
    have hd : 0 ≤ (t - t_max_unroll t_max) / 2 / (W : Int) :=
      Int.ediv_nonneg hq0 (by omega)
    have hs := Int.ediv_add_emod ((t - t_max_unroll t_max) / 2) (W : Int)
    rw [h2] at hs
    refine ⟨h1, ((t - t_max_unroll t_max) / 2 / (W : Int)).toNat,
      ((t - t_max_unroll t_max) % 2).toNat, by omega, ?_⟩
    have e1 : (((t - t_max_unroll t_max) / 2 / (W : Int)).toNat : Int)
        = (t - t_max_unroll t_max) / 2 / (W : Int) := Int.toNat_of_nonneg hd
    have e2 : (((t - t_max_unroll t_max) % 2).toNat : Int) = (t - t_max_unroll t_max) % 2 :=
      Int.toNat_of_nonneg (by omega)
    rw [e1, e2]
    have e3 : (t - t_max_unroll t_max) / 2 / (W : Int) * ((W : Int) * 2)
        = 2 * ((W : Int) * ((t - t_max_unroll t_max) / 2 / (W : Int))) := by ring
    rw [e3]
    omega

theorem tailPositions_nodup (W w : Nat) (hW : 0 < W) (t_max : Int) :
    (tailPositions W w t_max).Nodup :=
  (tailPositions_sorted W w hW t_max).imp (fun h => ne_of_lt h)

/-! ## Lengths that are zero or negative -/

theorem t_max_unroll_nonpos (t_max : Int) (h : t_max ≤ 0) :
    t_max ≤ t_max_unroll t_max ∧ t_max_unroll t_max ≤ 0 := by
  unfold t_max_unroll
  rw [dtt_eq]
  have e : t_max.tdiv 256 = -((-t_max) / 256) := by
    have h1 : t_max = -(-t_max) := by omega
    rw [h1, Int.neg_tdiv, Int.tdiv_eq_ediv (by omega) (by decide)]
    simp
  rw [e]
  omega

theorem mainLoopIters_nonpos (w : Nat) (t_max : Int) (h : t_max ≤ 0) :
    mainLoopIters w t_max = [] := by
  unfold mainLoopIters
  apply forIters_eq_nil
  have := t_max_unroll_nonpos t_max h
  simp only [n_loop_unroll, Nat.cast_ofNat]
  omega

theorem tailLoopIters_nonpos (W w : Nat) (t_max : Int) (h : t_max ≤ 0) :
    tailLoopIters W w t_max = [] := by
  unfold tailLoopIters
  apply forIters_eq_nil
  have := t_max_unroll_nonpos t_max h
  simp only [n_loop_unroll_tail, Nat.cast_ofNat]
  omega

theorem stridedIters_nonpos (W w lane : Nat) (t_max : Int) (h : t_max ≤ 0) :
    stridedIters W w lane t_max = [] := by
  unfold stridedIters
  apply forIters_eq_nil
  simp only [thread_linear_idx, kThreadsPerWavefront, Nat.cast_ofNat]
  omega

theorem blockPositions_nonpos (W : Nat) (t_max : Int) (h : t_max ≤ 0) :
    blockPositions W t_max = [] := by
  unfold blockPositions groupPositions mainPositions tailPositions
  simp [mainLoopIters_nonpos _ _ h, tailLoopIters_nonpos _ _ _ h]

/-! ## Running maxima -/

section Maxima

variable {β : Type} [LinearOrder β]

theorem foldl_max_ge_init (g : Int → β) (l : List Int) :
    ∀ m : β, m ≤ l.foldl (fun m t => max (g t) m) m := by
  induction l with
  | nil => intro m; exact le_refl m
  | cons a l ih => intro m; exact le_trans (le_max_right _ _) (ih _)

theorem foldl_max_ge_mem (g : Int → β) (l : List Int) :
    ∀ (m : β) (t : Int), t ∈ l → g t ≤ l.foldl (fun m t => max (g t) m) m := by
  induction l with
  | nil => intro m t h; simp at h
  | cons a l ih =>
    intro m t h
    rcases List.mem_cons.1 h with h | h
    · subst h
      exact le_trans (le_max_left _ _) (foldl_max_ge_init g l _)
    · exact ih _ t h

theorem foldl_max_mem (g : Int → β) (l : List Int) :
    ∀ m : β, l.foldl (fun m t => max (g t) m) m = m
      ∨ ∃ t, t ∈ l ∧ l.foldl (fun m t => max (g t) m) m = g t := by
  induction l with
  | nil => intro m; exact Or.inl rfl
  | cons a l ih =>
    intro m
    simp only [List.foldl_cons]
    rcases ih (max (g a) m) with h | ⟨t, ht, h⟩
    · rcases max_choice (g a) m with h2 | h2
      · exact Or.inr ⟨a, List.mem_cons_self _ _, by rw [h, h2]⟩
      · exact Or.inl (by rw [h, h2])
    · exact Or.inr ⟨t, List.mem_cons_of_mem _ ht, h⟩

end Maxima

/-! ## Slots that a fold of stores leaves alone -/

theorem foldl_frame {σ κ ι : Type} (g : (ι → σ) → κ → (ι → σ)) (p : ι) (l : List κ)
    (hg : ∀ (s : ι → σ) (x : κ), x ∈ l → g s x p = s p) :
    ∀ s : ι → σ, (l.foldl g s) p = s p := by
  induction l with
  | nil => intro s; rfl
  | cons a l ih =>
    intro s
    rw [List.foldl_cons, ih (fun s x hx => hg s x (List.mem_cons_of_mem _ hx)),
      hg s a (List.mem_cons_self _ _)]

/-- The normalisation loops change no slot outside the strided subsets of the lanes,
whatever maxima and denominators the lanes hold. -/
theorem normalize_frame {α : Type} [LinearOrderedField α] (expf : α → α)
    (M den : Nat → Nat → α) (W : Nat) (t_max : Int) (smem : Int → α) (p : Int)
    (hp : p ∉ threadPositions W t_max) :
    normalize expf M den W t_max smem p = smem p := by
  unfold normalize
  apply foldl_frame
  intro s w hw
  apply foldl_frame
  intro s lane hl
  unfold normalizeLane
  apply foldl_frame
  intro s t ht
  have hne : p ≠ t := by
    intro e
    apply hp
    unfold threadPositions
    rw [List.mem_flatMap]
    exact ⟨w, hw, List.mem_flatMap.2 ⟨lane, hl, e ▸ ht⟩⟩
  exact Function.update_noteq hne _ _

section BlockMax

variable {α : Type} [LinearOrderedField α]

/-- With 16 groups, the block maximum is at least the initial value `lowest()` and at
least every stored score, and it is one of them. -/
theorem blockMaxVal_16 (L : Launch α) (b h n : Nat) (hW : L.wavefronts_per_block = 16)
    (hn : L.t_max b = n) :
    floatLowest ≤ L.blockMaxVal b h
    ∧ (∀ t : Nat, t < n → (L.afterScore b h).2 (t : Int) ≤ L.blockMaxVal b h)
    ∧ (L.blockMaxVal b h = floatLowest
        ∨ ∃ t : Nat, t < n ∧ L.blockMaxVal b h = (L.afterScore b h).2 (t : Int)) := by
  have hg : ∀ l, l < 16 → (L.afterScore b h).1 l 0
      = (groupPositions 16 l (n : Int)).foldl
          (fun m t => max (qk_acc (L.q_thread b h) (L.Krow b h) L.qk_scale t 0) m)
          floatLowest := by
    intro l hl
    unfold Launch.afterScore
    rw [scoreStage_max _ _ _ _ _ _ _ _ (by omega), hW, hn]
  have hs : ∀ t : Int, t ∈ blockPositions 16 (n : Int) →
      (L.afterScore b h).2 t = qk_acc (L.q_thread b h) (L.Krow b h) L.qk_scale t 0 := by
    intro t ht
    unfold Launch.afterScore
    rw [scoreStage_smem, hW, hn, if_pos ht]
  unfold Launch.blockMaxVal
  rw [hW]
  refine ⟨?_, ?_, ?_⟩
  · refine le_trans ?_ (le_maxOver (fun l => (L.afterScore b h).1 l 0) 16 0 (by decide))
    show floatLowest ≤ (L.afterScore b h).1 0 0
    rw [hg 0 (by decide)]
    exact foldl_max_ge_init _ _ _
  · intro t ht
    have hmem : (t : Int) ∈ blockPositions 16 (n : Int) :=
      (mem_blockPositions_16 _ _ (by omega)).2 ⟨by omega, by omega⟩
    rw [hs _ hmem]
    unfold blockPositions at hmem
    obtain ⟨l, hl, hm⟩ := List.mem_flatMap.1 hmem
    have hl16 : l < 16 := List.mem_range.1 hl
    refine le_trans ?_ (le_maxOver (fun l => (L.afterScore b h).1 l 0) 16 l hl16)
    show qk_acc (L.q_thread b h) (L.Krow b h) L.qk_scale (t : Int) 0
      ≤ (L.afterScore b h).1 l 0
    rw [hg l hl16]
    exact foldl_max_ge_mem
      (fun t => qk_acc (L.q_thread b h) (L.Krow b h) L.qk_scale t 0) _ _ _ hm
  · obtain ⟨l, hl, e⟩ := maxOver_mem (fun l => (L.afterScore b h).1 l 0) 16 (by decide)
    rw [e]
    show (L.afterScore b h).1 l 0 = floatLowest ∨ _
    rw [hg l hl]
    rcases foldl_max_mem
      (fun t => qk_acc (L.q_thread b h) (L.Krow b h) L.qk_scale t 0)
      (groupPositions 16 l (n : Int)) floatLowest with h1 | ⟨t, ht, h1⟩
    · exact Or.inl h1
    · right
      have hb := (mem_groupPositions_16 l hl _ t (by omega)).1 ht
      have hmem : t ∈ blockPositions 16 (n : Int) := by
        unfold blockPositions
        exact List.mem_flatMap.2 ⟨l, List.mem_range.2 hl, ht⟩
      refine ⟨t.toNat, by omega, ?_⟩
      have e2 : ((t.toNat : Nat) : Int) = t := Int.toNat_of_nonneg hb.1
      rw [h1, e2, hs t hmem]

theorem maxOver_le {β : Type} [LinearOrder β] (f : Nat → β) (n : Nat) (hn : 0 < n) (m : β)
    (h : ∀ t, t < n → f t ≤ m) : maxOver n f ≤ m := by
  obtain ⟨l, hl, e⟩ := maxOver_mem f n hn
  rw [e]
  exact h l hl

end BlockMax

/-! # The claims, continued -/

/-! ## Claim C11 -/

/-- C11 (the code departs from the claim). With one group and valid length 256 the
score stage never visits position 16: slot 16 of the working buffer keeps its initial
contents, whatever the query and the keys are. With 32 groups and valid length 512
position 256 is visited by two groups, 0 and 16. -/
theorem score_stage_misses_and_repeats {α : Type} [LinearOrderedField α]
    (q_thread : Nat → Float4 α) (Krow : Int → Int → α) (qk_scale : α) (smem : Int → α) :
    (16 : Int) ∉ blockPositions 1 256
    ∧ (scoreStage q_thread Krow qk_scale 1 256 smem).2 16 = smem 16
    ∧ (256 : Int) ∈ groupPositions 32 0 512 ∧ (256 : Int) ∈ groupPositions 32 16 512 := by
  have h16 : (16 : Int) ∉ blockPositions 1 256 := by
    rw [blockPositions_1_256]
    decide
  have hU : t_max_unroll 512 = 512 := by decide
  refine ⟨h16, ?_, ?_, ?_⟩
  · rw [scoreStage_smem, if_neg h16]
  · unfold groupPositions
    rw [List.mem_append, mem_mainPositions, hU]
    left
    decide
  · unfold groupPositions
    rw [List.mem_append, mem_mainPositions, hU]
    left
    decide

/-! ## Claim C16 -/

/-- C16 (the code departs from its comment). With one group and valid length 255 the
tail range has 255 positions, while `wavefronts_per_block * n_loop_unroll` is 16; the
tail loop of the single group visits them all, position 254 among them. -/
theorem tail_longer_than_documented :
    (255 : Int) - t_max_unroll 255 = 255
    ∧ ¬ ((255 : Int) - t_max_unroll 255 ≤ ((1 : Nat) : Int) * (n_loop_unroll : Int))
    ∧ (254 : Int) ∈ tailPositions 1 0 255 := by
  have hU : t_max_unroll 255 = 0 := by decide
  refine ⟨by rw [hU]; decide, by rw [hU]; decide, ?_⟩
  rw [mem_tailPositions_iff 1 0 (by decide) (by decide), hU]
  decide

/-! ## Claim C17 -/

/-- C17 (the claim fails). Lane 0 of group 0 of a block of 16 groups with valid length 1
does not pass exactly 5 barriers. -/
theorem lane_barriers_not_five : (laneBarriers kWavefrontsPerBlock 0 0 1).length ≠ 5 := by
  decide

/-- C17, as amended. Every lane passes exactly six full-block barriers, the
`__syncthreads()` of lines 249, 265, 269, 284, 334 and 339 in this order, whatever its
lane index, its group index, the number of groups and the valid length are. -/
theorem lane_barriers_six (W w lane : Nat) (t_max : Int) :
    laneBarriers W w lane t_max
        = [Step.syncthreads 249, Step.syncthreads 265, Step.syncthreads 269,
           Step.syncthreads 284, Step.syncthreads 334, Step.syncthreads 339]
    ∧ (laneBarriers W w lane t_max).length = 6 := by
  have hmap : ∀ (f : Int → Step) (l : List Int), (∀ t, (f t).isBarrier = false) →
      (l.map f).filter Step.isBarrier = [] := by
    intro f l hf
    rw [List.filter_eq_nil_iff]
    intro s hs
    obtain ⟨t, _, rfl⟩ := List.mem_map.1 hs
    simp [hf t]
  have hite : ∀ (c : Prop) [Decidable c] (l : List Step),
      l.filter Step.isBarrier = [] →
      (if c then l else []).filter Step.isBarrier = [] := by
    intro c _ l hl
    split
    · exact hl
    · rfl
  have key : laneBarriers W w lane t_max
      = [Step.syncthreads 249, Step.syncthreads 265, Step.syncthreads 269,
         Step.syncthreads 284, Step.syncthreads 334, Step.syncthreads 339] := by
    unfold laneBarriers laneSteps
    simp only [List.filter_append, hmap Step.score_main _ (fun _ => rfl),
      hmap Step.score_tail _ (fun _ => rfl), hmap Step.exp_add _ (fun _ => rfl),
      hmap Step.normalize_slot _ (fun _ => rfl), hmap Step.acc_main _ (fun _ => rfl),
      hmap Step.acc_tail _ (fun _ => rfl), hite _ [Step.write_max] rfl,
      hite _ [Step.read_max] rfl, hite _ [Step.write_sum] rfl, hite _ [Step.read_sum] rfl,
      hite _ [Step.sum_accs, Step.store_output] rfl]
    rfl
  exact ⟨key, by rw [key]; rfl⟩

/-! ## Claim C20 -/

/-- C20. The host checks do not bound the valid lengths: a call with a key cache of
depth 16 and `seq_positions[0] = 9000` passes every check, and for it the score stage
of the registered operator visits cache row 16, beyond the cache depth, and stores
its score at slot 16; it visits score slot 8192, which is the staging slot of group 0;
and it visits score slot 8500, beyond the `smem_size / 4` floats of the working
buffer. -/
theorem host_checks_do_not_bound_lengths {α : Type} [LinearOrderedField α]
    (q_thread : Nat → Float4 α) (Krow : Int → Int → α) (qk_scale : α) (smem : Int → α) :
    hostChecks (constTensor ScalarType.Float [1, 1, 1, 256] (0 : α))
        (constTensor ScalarType.Float [1, 16, 1, 256] 0)
        (constTensor ScalarType.Float [1, 16, 1, 256] 0) (constLengths 9000) = none
    ∧ (constTensor ScalarType.Float [1, 16, 1, 256] (0 : α)).size 1 = 16
    ∧ (16 : Int) ∈ blockPositions kWavefrontsPerBlock 9000
    ∧ (scoreStage q_thread Krow qk_scale kWavefrontsPerBlock 9000 smem).2 16
        = qk_acc q_thread Krow qk_scale 16 0
    ∧ (8192 : Int) ∈ blockPositions kWavefrontsPerBlock 9000
    ∧ (8192 : Int) = (T_MAX : Int) + ((0 : Nat) : Int)
    ∧ (8500 : Int) ∈ blockPositions kWavefrontsPerBlock 9000
    ∧ ¬ ((8500 : Int) < smem_size kWavefrontsPerBlock / 4) := by
  have hm : ∀ t : Int, 0 ≤ t → t < 9000 → t ∈ blockPositions kWavefrontsPerBlock 9000 :=
    fun t h0 h1 => (mem_blockPositions_16 9000 t (by decide)).2 ⟨h0, h1⟩
  refine ⟨?_, rfl, hm 16 (by decide) (by decide), ?_, hm 8192 (by decide) (by decide),
    by decide, hm 8500 (by decide) (by decide), by decide⟩
  · exact (hostChecks_eq_none_iff _ _ _ _).2
      ⟨rfl, rfl, rfl, rfl, by show (16 : Nat) ≤ 8192; decide, rfl, Or.inr (Or.inr rfl)⟩
  · rw [scoreStage_smem, if_pos (hm 16 (by decide) (by decide))]

/-! ## Claim C12 -/

/-- C12. In the registered configuration (16 groups of 64 lanes), for a valid length `n`
with `1 <= n <= T_MAX`, after lines 250-255 every lane of every group holds the same
value `M`, the larger of `lowest()` and the maximum of the scores stored in the score
stage; so `score(t) - M <= 0` for every `t < n`, and when some score is at least
`lowest()`, as every finite float is, `M` is the maximum of the scores and
`score(t) - M = 0` for some `t < n`. A group that visits no position contributes the
initial value `lowest()`. -/
theorem block_max_is_score_max {α : Type} [LinearOrderedField α] (L : Launch α)
    (b h n w lane : Nat) (hW : L.wavefronts_per_block = kWavefrontsPerBlock)
    (hn : L.t_max b = n) (h1 : 1 ≤ n) (_hn8 : n ≤ T_MAX)
    (hw : w < kWavefrontsPerBlock) (hl : lane < kThreadsPerWavefront) :
    L.max_qk_acc b h w lane
        = max floatLowest (maxOver n fun t => (L.afterScore b h).2 (t : Int))
    ∧ (∀ t : Nat, t < n → (L.afterScore b h).2 (t : Int) - L.max_qk_acc b h w lane ≤ 0)
    ∧ ((∃ t : Nat, t < n ∧ floatLowest ≤ (L.afterScore b h).2 (t : Int)) →
        L.max_qk_acc b h w lane = maxOver n (fun t => (L.afterScore b h).2 (t : Int))
        ∧ ∃ t : Nat, t < n ∧ (L.afterScore b h).2 (t : Int) - L.max_qk_acc b h w lane = 0)
    ∧ (groupPositions kWavefrontsPerBlock w n = [] →
        (L.afterScore b h).1 w lane = floatLowest) := by
  have hW16 : L.wavefronts_per_block = 16 := hW
  have hw16 : w < L.wavefronts_per_block := by rw [hW16]; exact hw
  obtain ⟨ha, hb, hc⟩ := blockMaxVal_16 L b h n hW16 hn
  rw [max_qk_acc_uniform L b h (by omega) (by omega) w lane hw16 hl]
  have hmo : maxOver n (fun t => (L.afterScore b h).2 (t : Int)) ≤ L.blockMaxVal b h :=
    maxOver_le _ n (by omega) _ hb
  have hle : ∀ t : Nat, t < n → (L.afterScore b h).2 (t : Int)
      ≤ maxOver n (fun t => (L.afterScore b h).2 (t : Int)) :=
    fun t ht => le_maxOver (fun t => (L.afterScore b h).2 (t : Int)) n t ht
  have hmax : L.blockMaxVal b h
      = max floatLowest (maxOver n fun t => (L.afterScore b h).2 (t : Int)) := by
    apply le_antisymm
    · rcases hc with e | ⟨t, ht, e⟩
      · rw [e]; exact le_max_left _ _
      · rw [e]; exact le_trans (hle t ht) (le_max_right _ _)
    · exact max_le ha hmo
  refine ⟨hmax, fun t ht => sub_nonpos.2 (hb t ht), ?_, ?_⟩
  · rintro ⟨t, ht, hfin⟩
    have hlow : floatLowest ≤ maxOver n (fun t => (L.afterScore b h).2 (t : Int)) :=
      le_trans hfin (hle t ht)
    have heq : L.blockMaxVal b h
        = maxOver n (fun t => (L.afterScore b h).2 (t : Int)) := by
      rw [hmax, max_eq_right hlow]
    refine ⟨heq, ?_⟩
    obtain ⟨t2, ht2, e2⟩ := maxOver_mem (fun t => (L.afterScore b h).2 (t : Int)) n (by omega)
    exact ⟨t2, ht2, by rw [heq, e2]; exact sub_self _⟩
  · intro hempty
    unfold Launch.afterScore
    rw [scoreStage_max _ _ _ _ _ _ _ _ hw16, hW16, hn]
    have hempty' : groupPositions 16 w (n : Int) = [] := hempty
    rw [hempty']
    rfl

/-- Witness for `block_max_is_score_max`: 16 groups, three cached positions, lane 5 of
group 2. -/
theorem block_max_is_score_max_witness :
    (launchOf 16 (constTensor ScalarType.Float [1, 1, 1, 256] (1 : ℚ))
        (constTensor ScalarType.Float [1, 3, 1, 256] 1)
        (constTensor ScalarType.Float [1, 3, 1, 256] 2)
        (constLengths 3) 1 (fun _ _ _ => 0)).max_qk_acc 0 0 2 5
      = max floatLowest (maxOver 3 fun t =>
          ((launchOf 16 (constTensor ScalarType.Float [1, 1, 1, 256] (1 : ℚ))
            (constTensor ScalarType.Float [1, 3, 1, 256] 1)
            (constTensor ScalarType.Float [1, 3, 1, 256] 2)
            (constLengths 3) 1 (fun _ _ _ => 0)).afterScore 0 0).2 (t : Int)) :=
  (block_max_is_score_max
    (launchOf 16 (constTensor ScalarType.Float [1, 1, 1, 256] (1 : ℚ))
      (constTensor ScalarType.Float [1, 3, 1, 256] 1)
      (constTensor ScalarType.Float [1, 3, 1, 256] 2)
      (constLengths 3) 1 (fun _ _ _ => 0)) 0 0 3 2 5 rfl rfl (by decide) (by decide)
    (by decide) (by decide)).1

/-! ## Claim C13 -/

/-- C13. For every number of groups `W` with `1 <= W <= 64`: the map from (group `w`,
lane `l`) to the vector slot `l + 64 * w` is injective and its range over `w < W`,
`l < 64` is `[0, 64 * W)`, so no two lanes store their accumulator to the same slot; and
for every lane `l < 64` each component of the vector that lane `l` of group 0 writes
to the output is the sum over all `w < W` of that component of the accumulator of lane
`l` of group `w`. -/
theorem cross_group_output_reduction {α : Type} [LinearOrderedField α] (expf : α → α)
    (L : Launch α) (b h : Nat) (_hW : 1 ≤ L.wavefronts_per_block)
    (_hW64 : L.wavefronts_per_block ≤ 64) :
    (∀ w l w2 l2 : Nat, l < 64 → l2 < 64 →
        thread_linear_idx w l = thread_linear_idx w2 l2 → w = w2 ∧ l = l2)
    ∧ (∀ w l : Nat, w < L.wavefronts_per_block → l < 64 →
        0 ≤ thread_linear_idx w l
        ∧ thread_linear_idx w l < 64 * (L.wavefronts_per_block : Int))
    ∧ (∀ s : Int, 0 ≤ s → s < 64 * (L.wavefronts_per_block : Int) →
        ∃ w l : Nat, w < L.wavefronts_per_block ∧ l < 64 ∧ thread_linear_idx w l = s)
    ∧ (∀ l i : Nat, l < 64 → i < 4 →
        (L.bf_r expf b h l).get i
          = ∑ w in Finset.range L.wavefronts_per_block, (L.o_acc expf b h w l).get i) := by
  refine ⟨?_, ?_, ?_, ?_⟩
  · intro w l w2 l2 hl hl2 e
    simp only [thread_linear_idx, kThreadsPerWavefront, Nat.cast_ofNat] at e
    omega
  · intro w l hw hl
    simp only [thread_linear_idx, kThreadsPerWavefront, Nat.cast_ofNat]
    omega
  · intro s h0 hs
    refine ⟨(s / 64).toNat, (s % 64).toNat, by omega, by omega, ?_⟩
    simp only [thread_linear_idx, kThreadsPerWavefront, Nat.cast_ofNat]
    omega
  · intro l i hl hi
    unfold Launch.bf_r Launch.smemAccs
    exact sumAccs_storeAccs _ _ _ l i hl hi

/-- Witness for `cross_group_output_reduction`: 4 groups, lane 9, component 2. -/
theorem cross_group_output_reduction_witness :
    ((launchOf 4 (constTensor ScalarType.Float [1, 1, 1, 256] (1 : ℚ))
        (constTensor ScalarType.Float [1, 3, 1, 256] 1)
        (constTensor ScalarType.Float [1, 3, 1, 256] 2)
        (constLengths 3) 1 (fun _ _ _ => 0)).bf_r (fun _ => 1) 0 0 9).get 2
      = ∑ w in Finset.range 4,
          ((launchOf 4 (constTensor ScalarType.Float [1, 1, 1, 256] (1 : ℚ))
            (constTensor ScalarType.Float [1, 3, 1, 256] 1)
            (constTensor ScalarType.Float [1, 3, 1, 256] 2)
            (constLengths 3) 1 (fun _ _ _ => 0)).o_acc (fun _ => 1) 0 0 w 9).get 2 :=
  (cross_group_output_reduction (fun _ => 1)
    (launchOf 4 (constTensor ScalarType.Float [1, 1, 1, 256] (1 : ℚ))
      (constTensor ScalarType.Float [1, 3, 1, 256] 1)
      (constTensor ScalarType.Float [1, 3, 1, 256] 2)
      (constLengths 3) 1 (fun _ _ _ => 0)) 0 0 (by decide) (by decide)).2.2.2 9 2
    (by decide) (by decide)

/-! ## Claim C14 -/

/-- C14. For every number of groups, every valid length and every group, the score
stage and the accumulation stage of the group run over the same sequence of cache
positions, `groupPositions` (main loop, then guarded tail loop); hence each component
`i < 4` of the accumulator of a lane is the sum over exactly those positions `t` of
`Value[t][4 * lane + i] * weight[t]`, where `weight` is the working buffer the stage
reads. -/
theorem accumulation_revisits_scored_positions {α : Type} [LinearOrderedField α]
    (q_thread : Nat → Float4 α) (Krow Vrow : Int → Int → α) (qk_scale : α)
    (W w : Nat) (t_max : Int) (smem weight : Int → α) (lane i : Nat) (hi : i < 4) :
    scoreWavefront q_thread Krow qk_scale W w t_max smem
        = (groupPositions W w t_max).foldl (scoreAt q_thread Krow qk_scale)
            { max_qk_acc := fun _ => floatLowest, smem := smem }
    ∧ accWavefront Vrow W w t_max weight
        = (groupPositions W w t_max).foldl
            (fun (o : Nat → Float4 α) (t : Int) (lane : Nat) =>
              scalar4_scale_acc (o lane) (load_v (Vrow t) lane) (weight t))
            (fun _ => Float4.zero)
    ∧ (accWavefront Vrow W w t_max weight lane).get i
        = ((groupPositions W w t_max).map
            fun t => Vrow t (4 * (lane : Int) + (i : Int)) * weight t).sum :=
  ⟨scoreWavefront_eq q_thread Krow qk_scale W w t_max smem,
   accWavefront_eq Vrow W w t_max weight,
   accWavefront_get Vrow W w t_max weight lane i hi⟩

/-- Witness for `accumulation_revisits_scored_positions`: 2 groups, valid length 300,
group 1, lane 3, component 2. -/
theorem accumulation_revisits_scored_positions_witness :
    (accWavefront (fun _ _ => (2 : ℚ)) 2 1 300 (fun _ => 1) 3).get 2
      = ((groupPositions 2 1 300).map
          fun t => (fun _ _ => (2 : ℚ)) t (4 * ((3 : Nat) : Int) + ((2 : Nat) : Int))
            * (fun _ => (1 : ℚ)) t).sum :=
  (accumulation_revisits_scored_positions (fun _ => Float4.zero) (fun _ _ => (0 : ℚ))
    (fun _ _ => (2 : ℚ)) 1 2 1 300 (fun _ => 0) (fun _ => 1) 3 2 (by decide)).2.2

/-! ## Claim C15 -/

/-- C15. For every number of groups `W >= 1` and every valid length `n >= 0`: lane
`lane` of group `w` scans, in the sum-of-exponentials loop and again in the
normalisation loop, the slots `t = (lane + 64 * w) + k * 64 * W` below `n`; the subsets
of distinct lanes are disjoint; together they are the slots `0, ..., n - 1`, each once;
and the normalisation loops leave every slot outside `[0, n)` as it was. -/
theorem softmax_scan_partition {α : Type} [LinearOrderedField α] (W n : Nat) (hW : 1 ≤ W) :
    (∀ (w lane : Nat) (t : Int), t ∈ stridedIters W w lane n ↔
        t < n ∧ ∃ k : Nat, t = (lane : Int) + 64 * (w : Int) + (k : Int) * (64 * (W : Int)))
    ∧ (∀ (w lane w2 lane2 : Nat) (t : Int), w < W → lane < 64 → w2 < W → lane2 < 64 →
        t ∈ stridedIters W w lane n → t ∈ stridedIters W w2 lane2 n → w = w2 ∧ lane = lane2)
    ∧ (∀ w lane : Nat, (stridedIters W w lane n).Nodup)
    ∧ (threadPositions W n).Perm ((List.range n).map fun (i : Nat) => (i : Int))
    ∧ (∀ (expf : α → α) (M den : Nat → Nat → α) (smem : Int → α) (p : Int),
        ¬ (0 ≤ p ∧ p < n) → normalize expf M den W n smem p = smem p) := by
  refine ⟨fun w lane t => mem_stridedIters W w lane hW n t, ?_,
    fun w lane => stridedIters_nodup W w lane hW n, threadPositions_perm W hW n, ?_⟩
  · intro w lane w2 lane2 t hw hl hw2 hl2 h1 h2
    exact stridedIters_disjoint W w lane w2 lane2 hW hw hl hw2 hl2 n t h1 h2
  · intro expf M den smem p hp
    apply normalize_frame
    rw [mem_threadPositions W hW]
    exact hp

/-- Witness for `softmax_scan_partition`: 2 groups and valid length 300. -/
theorem softmax_scan_partition_witness :
    (threadPositions 2 ((300 : Nat) : Int)).Perm
      ((List.range 300).map fun (i : Nat) => (i : Int)) :=
  (softmax_scan_partition (α := ℚ) 2 300 (by decide)).2.2.2.1

/-! ## Claim C18 -/

/-- C18. For every launch with at least one group and every block whose valid length
is zero or negative: no main, tail or strided loop of any lane makes a pass; the
denominator every lane holds is 0, and the working buffer after the normalisation
stage is the same whatever denominators (hence reciprocals) the lanes hold; and the
kernel writes `O[b,0,h,d] = 0` for every `d < 256`, whatever the query, the caches and
`qk_scale` are. -/
theorem nonpositive_length_output_zero {α : Type} [LinearOrderedField α] (expf : α → α)
    (L : Launch α) (B H : Nat) (O : Int → Int → Int → Int → α) (b h d : Nat)
    (hb : b < B) (hh : h < H) (hd : d < D_H) (hW : 1 ≤ L.wavefronts_per_block)
    (hn : L.t_max b ≤ 0) :
    (∀ w lane : Nat,
        mainLoopIters w (L.t_max b) = []
        ∧ tailLoopIters L.wavefronts_per_block w (L.t_max b) = []
        ∧ stridedIters L.wavefronts_per_block w lane (L.t_max b) = [])
    ∧ (∀ w lane : Nat, lane < 64 → L.softmax_denominator expf b h w lane = 0)
    ∧ (∀ (M den : Nat → Nat → α) (smem : Int → α),
        normalize expf M den L.wavefronts_per_block (L.t_max b) smem = smem)
    ∧ efficient_attention_forward_decoder_ck_kernel expf L B H O b 0 h d = 0 := by
  refine ⟨fun w lane => ⟨mainLoopIters_nonpos w _ hn, tailLoopIters_nonpos _ w _ hn,
    stridedIters_nonpos _ w lane _ hn⟩, ?_, ?_, ?_⟩
  · intro w lane hl
    unfold Launch.softmax_denominator blockSum
    rw [wavefrontReduce_add _ lane hl]
    apply Finset.sum_eq_zero
    intro j _
    split
    · rename_i hj
      unfold Launch.smemSumStaged
      rw [stageWrite_slot _ _ _ _ hj, expSum_eq _ _ _ _ _ _ _ (by decide)]
      apply Finset.sum_eq_zero
      intro k _
      rw [stridedIters_nonpos _ _ _ _ hn]
      rfl
    · rfl
  · intro M den smem
    funext p
    apply normalize_frame
    unfold threadPositions
    simp [stridedIters_nonpos _ _ _ _ hn]
  · rw [kernel_output_general expf L B H O b h d hb hh hd hW, blockPositions_nonpos _ _ hn]
    rfl

/-- Witness for `nonpositive_length_output_zero`: the real exponential, 16 groups and
valid length 0. -/
theorem nonpositive_length_output_zero_witness :
    efficient_attention_forward_decoder_ck_kernel Real.exp
      (launchOf 16 (constTensor ScalarType.Float [1, 1, 1, 256] (1 : ℝ))
        (constTensor ScalarType.Float [1, 8, 1, 256] 1)
        (constTensor ScalarType.Float [1, 8, 1, 256] 2)
        (constLengths 0) 1 (fun _ _ _ => 5)) 1 1 (fun _ _ _ _ => 7)
      ((0 : Nat) : Int) 0 ((0 : Nat) : Int) ((3 : Nat) : Int) = 0 :=
  (nonpositive_length_output_zero Real.exp
    (launchOf 16 (constTensor ScalarType.Float [1, 1, 1, 256] (1 : ℝ))
      (constTensor ScalarType.Float [1, 8, 1, 256] 1)
      (constTensor ScalarType.Float [1, 8, 1, 256] 2)
      (constLengths 0) 1 (fun _ _ _ => 5)) 1 1 (fun _ _ _ _ => 7) 0 0 3 (by decide)
    (by decide) (by decide) (by decide)
    (by show (0 : Int) + 0 ≤ 0; decide)).2.2.2

/-! ## Claim C19 -/

/-- C19. For every number of groups `W >= 1` and every valid length `n >= 0`, with
`U = (n / 256) * 256`: the tail loop of group `w < W` visits exactly the positions `t`
with `U <= t < n` and `((t - U) / 2) mod W = w`, each once, so every position of
`[U, n)` is visited by the tail loop of exactly one group and no position at or above
`n` is visited; and the tail loops of the score stage and of the accumulation stage act
on these positions only. -/
theorem tail_loops_cover_remainder {α : Type} [LinearOrderedField α] (W n : Nat)
    (hW : 1 ≤ W) :
    t_max_unroll n = (n : Int) / 256 * 256
    ∧ (∀ (w : Nat) (t : Int), w < W →
        (t ∈ tailPositions W w n ↔
          (n : Int) / 256 * 256 ≤ t ∧ t < n
            ∧ (t - (n : Int) / 256 * 256) / 2 % (W : Int) = (w : Int)))
    ∧ (∀ w : Nat, (tailPositions W w n).Nodup)
    ∧ (∀ t : Int, (n : Int) / 256 * 256 ≤ t → t < n →
        ∃ w : Nat, w < W ∧ t ∈ tailPositions W w n
          ∧ ∀ w2 : Nat, w2 < W → t ∈ tailPositions W w2 n → w2 = w)
    ∧ (∀ (q_thread : Nat → Float4 α) (Krow : Int → Int → α) (qk_scale : α) (w : Nat)
        (s : ScoreState α),
        (tailLoopIters W w n).foldl
            (fun s tt => scoreTailBody q_thread Krow qk_scale n tt s) s
          = (tailPositions W w n).foldl (scoreAt q_thread Krow qk_scale) s)
    ∧ (∀ (Vrow : Int → Int → α) (smem : Int → α) (w : Nat) (o : Nat → Float4 α),
        (tailLoopIters W w n).foldl (fun o tt => accTailBody Vrow smem n tt o) o
          = (tailPositions W w n).foldl
              (fun (o : Nat → Float4 α) (t : Int) (lane : Nat) =>
                scalar4_scale_acc (o lane) (load_v (Vrow t) lane) (smem t)) o) := by
  have hU := t_max_unroll_eq (n : Int) (by omega)
  refine ⟨hU, ?_, fun w => tailPositions_nodup W w hW n, ?_, ?_, ?_⟩
  · intro w t hw
    rw [mem_tailPositions_iff W w hW hw, hU]
  · intro t h0 h1
    have hWpos : (0 : Int) < (W : Int) := by omega
    have hq : 0 ≤ (t - (n : Int) / 256 * 256) / 2 := by omega
    have hm0 := Int.emod_nonneg ((t - (n : Int) / 256 * 256) / 2) (ne_of_gt hWpos)
    have hm1 := Int.emod_lt_of_pos ((t - (n : Int) / 256 * 256) / 2) hWpos
    refine ⟨((t - (n : Int) / 256 * 256) / 2 % (W : Int)).toNat, by omega, ?_, ?_⟩
    · rw [mem_tailPositions_iff W _ hW (by omega), hU]
      exact ⟨h0, h1, (Int.toNat_of_nonneg hm0).symm⟩
    · intro w2 hw2 hmem
      rw [mem_tailPositions_iff W w2 hW hw2, hU] at hmem
      omega
  · intro q_thread Krow qk_scale w s
    unfold tailPositions
    rw [foldl_flatMap']
    simp only [scoreTailBody_eq]
  · intro Vrow smem w o
    unfold tailPositions
    rw [foldl_flatMap']
    simp only [accTailBody_eq]

/-- Witness for `tail_loops_cover_remainder`: 3 groups and valid length 300; position 290
is visited by the tail loop of group `((290 - 256) / 2) mod 3 = 2`. -/
theorem tail_loops_cover_remainder_witness :
    (290 : Int) ∈ tailPositions 3 2 ((300 : Nat) : Int) :=
  ((tail_loops_cover_remainder (α := ℚ) 3 300 (by decide)).2.1 2 290 (by decide)).2
    (by decide)

end AttnDecoder
